import Mathlib

/-!
Verification of the TreeLine node-format templating engine (nodeformat.py)
and multi-spot tree structure (treestructure.py) against their
natural-language specification.

Strings are modelled as lists of characters (`Chars`).  Python regular
expressions used by the source are embedded as deterministic character
scanners.  Field capabilities (fieldformat.py) and the TreeNode/Spot layer
(treenode.py) are not part of the repository slice; where a definition
models such a missing part from the specification, its doc comment says so.
-/

set_option maxHeartbeats 1000000

namespace TreeLine

abbrev Chars := List Char

/-- Python str.split() whitespace characters (ASCII model of the source's
whitespace splitting). -/
def isPySpace (c : Char) : Bool :=
  c = ' ' || c = '\t' || c = '\n' || c = '\r' || c = '\x0b' || c = '\x0c'

/-- The accumulator pass of Python text.split(): collect the current run of
non-whitespace characters (reversed) and flush it at each whitespace
character and at the end. -/
def splitWordsAux : List Char → List Char → List (List Char)
  | [], acc => if acc = [] then [] else [acc.reverse]
  | c :: rest, acc =>
    if isPySpace c then
      (if acc = [] then [] else [acc.reverse]) ++ splitWordsAux rest []
    else splitWordsAux rest (c :: acc)

/-- Python text.split(): maximal runs of non-whitespace characters, leading,
trailing and repeated whitespace discarded. -/
def splitWords (cs : List Char) : List (List Char) :=
  splitWordsAux cs []

/-- Join words with single spaces (the second half of the source's
whitespace normalization, Python " ".join(words)). -/
def joinWords : List (List Char) → List Char
  | [] => []
  | [w] => w
  | w :: ws => w ++ ' ' :: joinWords ws

/-- NodeFormat.parseLine's whitespace normalization:
text = " ".join(text.split()), collapsing every whitespace run (including
newlines) to a single space and stripping the ends. -/
def normalizeSpaces (cs : List Char) : List Char :=
  joinWords (splitWords cs)

/-- Python str.strip(): drop leading and trailing whitespace. -/
def pyStrip (cs : List Char) : List Char :=
  ((cs.dropWhile isPySpace).reverse.dropWhile isPySpace).reverse

/-- xml.sax.saxutils.escape: replace ampersand, less-than and greater-than
by their entities (applied to literal template text in non-HTML formats). -/
def xmlEscape : List Char → List Char
  | [] => []
  | '&' :: r => '&' :: 'a' :: 'm' :: 'p' :: ';' :: xmlEscape r
  | '<' :: r => '&' :: 'l' :: 't' :: ';' :: xmlEscape r
  | '>' :: r => '&' :: 'g' :: 't' :: ';' :: xmlEscape r
  | c :: r => c :: xmlEscape r

/-- Tag-skipping pass for removeMarkup: inside a tag, drop characters up to
the closing bracket; outside, keep text and enter a tag at an opening
bracket. -/
def removeMarkupAux : List Char → Bool → List Char
  | [], _ => []
  | c :: r, true => if c = '>' then removeMarkupAux r false else removeMarkupAux r true
  | c :: r, false => if c = '<' then removeMarkupAux r true else c :: removeMarkupAux r false

/-- Modelled from the spec: fieldformat.removeMarkup is outside the
repository slice; the spec treats it as stripping embedded HTML markup
from literal text, so angle-bracketed tags are deleted. -/
def removeMarkup (cs : List Char) : List Char :=
  removeMarkupAux cs false

/-- Word characters accepted inside a field name by the source's field
regexes, the class [\w_\-.] (ASCII model of \w). -/
def isWordChar (c : Char) : Bool :=
  c.isAlphanum || c = '_' || c = '-' || c = '.'

/-- The modifier alternation of _fieldPartRe: a run of asterisks (possibly
empty) or a single one of ? ! & #. -/
def modOk (mod : List Char) : Prop :=
  (∀ c ∈ mod, c = '*') ∨ mod = ['?'] ∨ mod = ['!'] ∨ mod = ['&'] ∨ mod = ['#']

instance (mod : List Char) : Decidable (modOk mod) := by
  unfold modOk; infer_instance

/-- The modifier stage of the field-reference pattern: the alternation
(\**|\?|!|&|#) read greedily at the head, returning (modifier, remainder). -/
def matchFieldMod (rest : List Char) : List Char × List Char :=
  match rest with
  | c :: r =>
    if c = '?' || c = '!' || c = '&' || c = '#' then ([c], r)
    else ((c :: r).takeWhile (fun d => d = '*'), (c :: r).dropWhile (fun d => d = '*'))
  | [] => ([], [])

/-- The field-reference pattern of _fieldPartRe and _fieldSplitRe,
r"{\*(\**|\?|!|&|#)([\w_\-.]+)\*}", matched at the head of the text:
some (matched text, modifier, field name, remainder) on success. -/
def matchField (cs : List Char) : Option (List Char × List Char × List Char × List Char) :=
  match cs with
  | '{' :: '*' :: rest =>
    let mod := (matchFieldMod rest).1
    let rest1 := (matchFieldMod rest).2
    let name := rest1.takeWhile isWordChar
    let rest2 := rest1.dropWhile isWordChar
    if name = [] then none
    else
      match rest2 with
      | '*' :: '}' :: rest3 =>
        some ('{' :: '*' :: (mod ++ name ++ ['*', '}']), mod, name, rest3)
      | _ => none
  | _ => none

theorem takeWhile_all_append (p : Char → Bool) (w s : List Char)
    (hw : ∀ c ∈ w, p c = true)
    (hs : ∀ c, s.head? = some c → p c = false) :
    (w ++ s).takeWhile p = w ∧ (w ++ s).dropWhile p = s := by
  induction w with
  | nil =>
    simp only [List.nil_append]
    cases s with
    | nil => simp [List.takeWhile, List.dropWhile]
    | cons c r =>
      have := hs c rfl
      simp [List.takeWhile, List.dropWhile, this]
  | cons c w ih =>
    have hc : p c = true := hw c (List.mem_cons_self c w)
    have ih2 := ih (fun d hd => hw d (List.mem_cons_of_mem c hd))
    simp [List.takeWhile, List.dropWhile, hc, ih2.1, ih2.2]

theorem matchFieldMod_spec (rest : List Char) :
    (matchFieldMod rest).1 ++ (matchFieldMod rest).2 = rest ∧
      modOk (matchFieldMod rest).1 := by
  match rest with
  | [] => constructor <;> simp [matchFieldMod, modOk]
  | c :: r =>
    by_cases hspec : (c = '?' || c = '!' || c = '&' || c = '#') = true
    · rw [matchFieldMod, if_pos hspec]
      refine ⟨rfl, ?_⟩
      simp only [Bool.or_eq_true, decide_eq_true_eq] at hspec
      unfold modOk
      rcases hspec with (((a | a) | a) | a) <;> subst a <;> simp
    · rw [matchFieldMod, if_neg (by simp_all)]
      refine ⟨List.takeWhile_append_dropWhile _ _, Or.inl ?_⟩
      intro d hd
      have := List.mem_takeWhile_imp hd
      simpa using this

theorem matchField_spec (cs m mod nm rest : List Char)
    (h : matchField cs = some (m, mod, nm, rest)) :
    m = '{' :: '*' :: (mod ++ nm ++ ['*', '}']) ∧ cs = m ++ rest ∧
      nm ≠ [] ∧ (∀ c ∈ nm, isWordChar c = true) ∧ modOk mod := by
  match cs with
  | [] => simp [matchField] at h
  | [c] =>
    unfold matchField at h
    cases hc : decide (c = '{') <;> simp_all
  | c1 :: c2 :: rest0 =>
    unfold matchField at h
    by_cases h1 : c1 = '{'
    · by_cases h2 : c2 = '*'
      · subst h1; subst h2
        simp only at h
        have hsplit0 := matchFieldMod_spec rest0
        obtain ⟨md, r1, hmm⟩ : ∃ md r1, matchFieldMod rest0 = (md, r1) :=
          ⟨_, _, rfl⟩
        rw [hmm] at h hsplit0
        obtain ⟨hsplit, hmodok⟩ := hsplit0
        simp only at h hsplit hmodok
        have htw : r1.takeWhile isWordChar ++ r1.dropWhile isWordChar = r1 :=
          List.takeWhile_append_dropWhile _ _
        have hwc : ∀ c ∈ r1.takeWhile isWordChar, isWordChar c = true :=
          fun c hc => List.mem_takeWhile_imp hc
        by_cases hname : (r1.takeWhile isWordChar) = []
        · rw [if_pos hname] at h
          exact absurd h (by simp)
        · rw [if_neg hname] at h
          revert h htw
          match hr2 : r1.dropWhile isWordChar with
          | [] => intro h htw; simp at h
          | [d] =>
            intro h htw
            cases hd : decide (d = '*') <;> simp_all
          | d1 :: d2 :: r3 =>
            intro h htw
            by_cases hd1 : d1 = '*'
            · by_cases hd2 : d2 = '}'
              · subst hd1; subst hd2
                simp only [Option.some.injEq, Prod.mk.injEq] at h
                obtain ⟨hm, hmod, hnm, hrest⟩ := h
                subst hm; subst hmod; subst hnm; subst hrest
                refine ⟨rfl, ?_, hname, hwc, hmodok⟩
                simp only [List.cons_append, List.append_assoc, List.cons.injEq,
                  true_and]
                rw [← hsplit]
                conv_lhs => rw [← htw]
                simp
              · subst hd1; simp [hd2] at h
            · simp [hd1] at h
      · revert h
        cases c2 <;> simp_all [matchField]
    · revert h
      cases c1 <;> simp_all [matchField]

theorem wordChar_not_special {c : Char} (h : isWordChar c = true) :
    c ≠ '*' ∧ c ≠ '?' ∧ c ≠ '!' ∧ c ≠ '&' ∧ c ≠ '#' := by
  refine ⟨?_, ?_, ?_, ?_, ?_⟩ <;>
    · intro e
      rw [e] at h
      exact absurd h (by decide)

theorem matchFieldMod_build (mod nm tail : List Char) (hmod : modOk mod)
    (hnm : nm ≠ []) (hwc : ∀ c ∈ nm, isWordChar c = true) :
    matchFieldMod (mod ++ nm ++ '*' :: '}' :: tail) =
      (mod, nm ++ '*' :: '}' :: tail) := by
  cases nm with
  | nil => exact absurd rfl hnm
  | cons n0 nrest =>
    have hn0 := wordChar_not_special (hwc n0 (List.mem_cons_self n0 nrest))
    rcases hmod with hstars | hq | hq | hq | hq
    · cases mod with
      | nil =>
        simp only [List.nil_append, List.cons_append]
        rw [matchFieldMod]
        rw [if_neg (by simp [hn0.2.1, hn0.2.2.1, hn0.2.2.2.1, hn0.2.2.2.2])]
        have := takeWhile_all_append (fun d => decide (d = '*')) []
          (n0 :: (nrest ++ '*' :: '}' :: tail))
          (by intro c hc; simp at hc)
          (by intro c hc
              simp only [List.head?_cons, Option.some.injEq] at hc
              subst hc
              simp [hn0.1])
        simp only [List.nil_append] at this
        rw [this.1, this.2]
      | cons s srest =>
        have hs : s = '*' := hstars s (List.mem_cons_self s srest)
        subst hs
        simp only [List.cons_append, List.append_assoc]
        rw [matchFieldMod]
        rw [if_neg (by decide)]
        have := takeWhile_all_append (fun d => decide (d = '*'))
          ('*' :: srest) (n0 :: (nrest ++ '*' :: '}' :: tail))
          (by intro c hc
              have := hstars c hc
              simp [this])
          (by intro c hc
              simp only [List.head?_cons, Option.some.injEq] at hc
              subst hc
              simp [hn0.1])
        simp only [List.cons_append, List.append_assoc] at this
        rw [this.1, this.2]
    all_goals
      subst hq
      simp only [List.cons_append, List.nil_append]
      rw [matchFieldMod]
      rw [if_pos (by simp)]

theorem matchField_build (mod nm tail : List Char) (hmod : modOk mod)
    (hnm : nm ≠ []) (hwc : ∀ c ∈ nm, isWordChar c = true) :
    matchField (('{' :: '*' :: (mod ++ nm ++ ['*', '}'])) ++ tail) =
      some ('{' :: '*' :: (mod ++ nm ++ ['*', '}']), mod, nm, tail) := by
  have harr : (('{' :: '*' :: (mod ++ nm ++ ['*', '}'])) ++ tail) =
      '{' :: '*' :: (mod ++ nm ++ '*' :: '}' :: tail) := by
    simp [List.cons_append, List.append_assoc]
  rw [harr]
  have hmm := matchFieldMod_build mod nm tail hmod hnm hwc
  have htw := takeWhile_all_append isWordChar nm ('*' :: '}' :: tail) hwc
    (by intro c hc
        simp only [List.head?_cons, Option.some.injEq] at hc
        subst hc
        decide)
  rw [matchField]
  simp only [hmm]
  rw [htw.1, htw.2]
  rw [if_neg hnm]
  rfl

/-- A field object held in a NodeFormat's fieldDict.  The field-type library
is outside the scope of the spec (an opaque capability); the template engine
itself uses only the field's name. -/
structure Field where
  name : Chars
deriving DecidableEq, Repr

/-- One token of a compiled template line: a field object or literal text
(the source stores field objects and plain strings in the same list). -/
inductive TPart where
  | field : Field → TPart
  | text : Chars → TPart
deriving DecidableEq, Repr

/-- Python dict lookup d[k] as an Option (insertion-ordered association
list; keys are unique in an actual dict). -/
def dictGet {α β : Type} [DecidableEq α] (d : List (α × β)) (k : α) : Option β :=
  match d with
  | [] => none
  | (k', v) :: r => if k' = k then some v else dictGet r k

/-- Python dict assignment d[k] = v: replace the value at an existing key in
place (keeping its position), otherwise append the new pair at the end. -/
def pyDictSet {α β : Type} [DecidableEq α] (d : List (α × β)) (k : α) (v : β) :
    List (α × β) :=
  match d with
  | [] => [(k, v)]
  | kv :: r => if kv.1 = k then (k, v) :: r else kv :: pyDictSet r k v

/-- NodeFormat: per-type template and field data (nodeformat.py).  Lines are
stored compiled (the state after updateLineParsing). -/
structure NodeFormat where
  name : Chars
  fieldDict : List (Chars × Field)
  titleLine : List TPart
  outputLines : List (List TPart)
  origOutputLines : List (List TPart)
  siblingPrefix : Chars
  siblingSuffix : Chars
  spaceBetween : Bool
  formatHtml : Bool
  useBullets : Bool
  useTables : Bool
  childType : Chars
  outputSeparator : Chars
deriving DecidableEq, Repr

/-- NodeFormat.parseField (self.fieldDict passed explicitly): parse one text
segment; a registered field name with an empty modifier yields the field
object from fieldDict, anything else is returned as the literal text
(KeyError on an unknown name is caught and falls through to the text). -/
def parseField (fieldDict : List (Chars × Field)) (text : Chars) : TPart :=
  match matchField text with
  | some (_, mod, nm, _) =>
    if mod = [] then
      match dictGet fieldDict nm with
      | some f => TPart.field f
      | none => TPart.text text
    else TPart.text text
  | none => TPart.text text

/-- re.split over _fieldSplitRe with empty segments discarded (the generator
in parseLine keeps only non-empty parts): scan left to right, emitting
accumulated literal text and each leftmost field-pattern match.  The fuel
decreases once per step while a match consumes at least five characters, so
any fuel at least the text length gives the scan itself; at exhausted fuel
(never reached from fieldSegments) the rest is flushed unscanned. -/
def fieldSegmentsF : Nat → List Char → List Char → List Chars
  | _, [], acc => if acc = [] then [] else [acc.reverse]
  | 0, cs, acc => (if acc = [] then [] else [acc.reverse]) ++ [cs]
  | fuel + 1, c :: rest, acc =>
    match matchField (c :: rest) with
    | some (m, _, _, rest') =>
      (if acc = [] then [] else [acc.reverse]) ++ m :: fieldSegmentsF fuel rest' []
    | none => fieldSegmentsF fuel rest (c :: acc)

/-- The field/text segments of a line: the scan with sufficient fuel. -/
def fieldSegments (cs : List Char) (acc : List Char) : List Chars :=
  fieldSegmentsF cs.length cs acc

/-- NodeFormat.parseLine (self.fieldDict passed explicitly): normalize
whitespace, split on the field pattern, and parse every segment. -/
def parseLine (fieldDict : List (Chars × Field)) (text : Chars) : List TPart :=
  (fieldSegments (normalizeSpaces text) []).map (parseField fieldDict)

/-- Modelled from the spec: fieldformat.Field.sepName is outside the
repository slice; the spec says a field token serializes back to its
canonical embedded form with braces and asterisks around the name. -/
def sepName (f : Field) : Chars :=
  '{' :: '*' :: (f.name ++ ['*', '}'])

/-- The serialization loop shared by getTitleLine and getOutputLines:
field parts via sepName, text parts verbatim, concatenated. -/
def joinParts (line : List TPart) : Chars :=
  (line.map (fun p =>
    match p with
    | TPart.field f => sepName f
    | TPart.text t => t)).flatten

/-- NodeFormat.getTitleLine: text of the title format with field names
embedded. -/
def getTitleLine (fmt : NodeFormat) : Chars :=
  joinParts fmt.titleLine

/-- NodeFormat.getOutputLines: text list of output format lines; when
useOriginal is true and an undecorated snapshot exists it is used; an empty
list yields one empty line. -/
def getOutputLines (fmt : NodeFormat) (useOriginal : Bool) : List Chars :=
  let lines :=
    if useOriginal && !fmt.origOutputLines.isEmpty then fmt.origOutputLines
    else fmt.outputLines
  let ls := lines.map joinParts
  if ls.isEmpty then [[]] else ls

/-- NodeFormat.updateLineParsing: re-serialize the stored lines to text and
parse them back to token lists (title, output lines, and the undecorated
snapshot when present). -/
def updateLineParsing (fmt : NodeFormat) : NodeFormat :=
  { fmt with
    titleLine := parseLine fmt.fieldDict (getTitleLine fmt)
    outputLines := (getOutputLines fmt false).map (parseLine fmt.fieldDict)
    origOutputLines :=
      if !fmt.origOutputLines.isEmpty then
        (getOutputLines fmt true).map (parseLine fmt.fieldDict)
      else fmt.origOutputLines }


/-- A node's field-value map (TreeNode.data): stored values are canonical
text keyed by field name. -/
abbrev NodeData := List (Chars × Chars)

/-- Modelled from the spec: the opaque field capability
render/outputText(node, plainTextMode, htmlMode) -> text of fieldformat.py,
as a function of the field name, the node data and the two mode flags. -/
abbrev FieldOut := Chars → NodeData → Bool → Bool → Chars

/-- The inner loop of NodeFormat.formatOutput over one output line:
returns (rendered line, numEmptyFields, numFullFields).  Field parts render
through the capability and are counted empty or full; literal parts are
HTML-escaped when the format is not HTML and output is not plain text, and
markup-stripped when the format is HTML but plain text is requested. -/
def formatLine (fo : FieldOut) (node : NodeData) (plainText formatHtml : Bool)
    (lineData : List TPart) : Chars × Nat × Nat :=
  lineData.foldl
    (fun acc part =>
      match part with
      | TPart.field f =>
        let text := fo f.name node plainText formatHtml
        if text = [] then (acc.1 ++ text, acc.2.1 + 1, acc.2.2)
        else (acc.1 ++ text, acc.2.1, acc.2.2 + 1)
      | TPart.text t =>
        let t' :=
          if !formatHtml && !plainText then xmlEscape t
          else if formatHtml && plainText then removeMarkup t
          else t
        (acc.1 ++ t', acc.2.1, acc.2.2))
    ([], 0, 0)

/-- Whether two characters spell one of the four tag words of _endTagRe:
br, BR, hr, HR (lowercase or uppercase pairs only). -/
def isTagWord (a b : Char) : Bool :=
  (a = 'b' && b = 'r') || (a = 'B' && b = 'R') ||
    (a = 'h' && b = 'r') || (a = 'H' && b = 'R')

/-- The reversed-suffix reading of _endTagRe: from the reversed line, a
closing bracket, a run of spaces and slashes, the two tag letters and the
opening bracket; returns the tag in source order. -/
def endTagRev (rcs : List Char) : Option Chars :=
  match rcs with
  | '>' :: r =>
    let run := r.takeWhile (fun c => c = ' ' || c = '/')
    match r.dropWhile (fun c => c = ' ' || c = '/') with
    | b2 :: b1 :: '<' :: _ =>
      if isTagWord b1 b2 then some ('<' :: b1 :: b2 :: (run.reverse ++ ['>']))
      else none
    | _ => none
  | _ => none

/-- re.match over _endTagRe = r".*(<br[ /]*?>|<BR[ /]*?>|<hr[ /]*?>|<HR[ /]*?>)$":
the dot does not cross newlines and the dollar also matches just before one
trailing newline, so the line (less one trailing newline) must be
newline-free and end in one of the four tag forms; returns group(1). -/
def endTagMatch (line : Chars) : Option Chars :=
  let core := if line.getLast? = some '\n' then line.dropLast else line
  match endTagRev core.reverse with
  | some tag => if '\n' ∈ core then none else some tag
  | none => none

/-- One iteration of NodeFormat.formatOutput's loop over one output line:
the line is appended when keepBlanks is set, some field rendered non-empty
or no field rendered empty; otherwise, in HTML non-plain mode, a trailing
break tag of the dropped line is appended to the previous kept line. -/
def formatOutputStep (fo : FieldOut) (node : NodeData)
    (plainText keepBlanks formatHtml : Bool) (result : List Chars)
    (lineData : List TPart) : List Chars :=
  let r := formatLine fo node plainText formatHtml lineData
  if keepBlanks || r.2.2 ≠ 0 || r.2.1 = 0 then result ++ [r.1]
  else if formatHtml && !plainText && result ≠ [] then
    match endTagMatch r.1 with
    | some tag => result.dropLast ++ [result.getLastD [] ++ tag]
    | none => result
  else result

/-- NodeFormat.formatOutput: the list of formatted text output lines. -/
def formatOutput (fmt : NodeFormat) (fo : FieldOut) (node : NodeData)
    (plainText keepBlanks : Bool) : List Chars :=
  fmt.outputLines.foldl
    (formatOutputStep fo node plainText keepBlanks fmt.formatHtml) []

/-- One item of the regex pattern built by extractTitleData: a capture
group "(.*)" for a field, or re.escape-d literal separator text. -/
inductive PatItem where
  | group : PatItem
  | lit : Chars → PatItem
deriving DecidableEq, Repr

/-- The pattern, field-name list and concatenated separator text built from
the title line by extractTitleData's first loop. -/
def titlePattern (titleLine : List TPart) : List PatItem × List Chars × Chars :=
  titleLine.foldl
    (fun acc part =>
      match part with
      | TPart.field f => (acc.1 ++ [PatItem.group], acc.2.1 ++ [f.name], acc.2.2)
      | TPart.text t => (acc.1 ++ [PatItem.lit t], acc.2.1, acc.2.2 ++ t))
    ([], [], [])

/-- Greedy matching of one "(.*)" group against the continuation cont of
the rest of the pattern: try the longest newline-free prefix of length at
most k first, backtracking to shorter ones. -/
def tryGroup (cont : Chars → Option (List Chars)) (s : Chars) :
    Nat → Option (List Chars)
  | 0 => (cont s).map (fun gs => [] :: gs)
  | k + 1 =>
    if '\n' ∈ s.take (k + 1) then tryGroup cont s k
    else
      match cont (s.drop (k + 1)) with
      | some gs => some (s.take (k + 1) :: gs)
      | none => tryGroup cont s k

/-- Python re.match of a pattern of greedy "(.*)" groups and literal text
against a string: backtracking leftmost-longest semantics, the dot not
matching newlines and no anchoring at the end; returns the captured groups. -/
def reMatchItems : List PatItem → Chars → Option (List Chars)
  | [], _ => some []
  | PatItem.lit l :: rest, s =>
    if l.isPrefixOf s then reMatchItems rest (s.drop l.length) else none
  | PatItem.group :: rest, s => tryGroup (reMatchItems rest) s s.length

/-- The assignment loop of extractTitleData's match branch: store each
captured group through the field capability in order; a conversion failure
(ValueError) stops the loop and reports failure with the earlier
assignments already made (the source catches the exception after the
in-place dictionary writes). -/
def assignGroups (cap : Chars → Chars → Option Chars) :
    List Chars → List Chars → NodeData → Bool × NodeData
  | [], _, data => (true, data)
  | _ :: _, [], data => (true, data)
  | name :: names, g :: gs, data =>
    match cap name g with
    | some v => assignGroups cap names gs (pyDictSet data name v)
    | none => (false, data)

/-- NodeFormat.extractTitleData: match the title template against the title
string and update the data dictionary; some (True, data) on success,
some (False, data) on a reported failure, none for the uncaught IndexError
the source raises when the whitespace fallback finds no fields.  The field
capability storedTextFromTitle (fieldformat.py, outside the slice) is the
cap argument, none standing for its ValueError. -/
def extractTitleData (fmt : NodeFormat) (cap : Chars → Chars → Option Chars)
    (titleString : Chars) (data : NodeData) : Option (Bool × NodeData) :=
  let pat := titlePattern fmt.titleLine
  match reMatchItems pat.1 titleString with
  | some groups => some (assignGroups cap pat.2.1 groups data)
  | none =>
    if pyStrip pat.2.2 = [] then
      match pat.2.1 with
      | [] => none
      | f0 :: restFields =>
        match cap f0 titleString with
        | none => some (false, data)
        | some v =>
          some (true, restFields.foldl (fun d fn => pyDictSet d fn [])
            (pyDictSet data f0 v))
    else some (false, data)

/-- NodeFormat.addBullets: set list sibling tags, wrap the first and last
serialized output line in list-item tags, snapshot the undecorated lines and
reparse (the source stores the decorated lines as raw strings and calls
updateLineParsing, which reads a raw string back unchanged when joining). -/
def addBullets (fmt : NodeFormat) : NodeFormat :=
  let lines := getOutputLines fmt true
  let lines :=
    if lines = [[]] then lines
    else ((lines.modifyHead (fun l => '<' :: 'l' :: 'i' :: '>' :: l)).modifyLast
      (fun l => l ++ ['<', '/', 'l', 'i', '>']))
  updateLineParsing
    { fmt with
      siblingPrefix := ['<', 'u', 'l', '>']
      siblingSuffix := ['<', '/', 'u', 'l', '>']
      origOutputLines := fmt.outputLines
      outputLines := lines.map (fun l => [TPart.text l]) }

/-- Python line.split(":", 1): the text before the first colon and the text
after it (the line is assumed to contain a colon when the second component
is used, as guarded in addTables). -/
def splitColonOnce (line : Chars) : Chars × Chars :=
  (line.takeWhile (fun c => c ≠ ':'), (line.dropWhile (fun c => c ≠ ':')).drop 1)

/-- The success path of NodeFormat.addTables, applied to the filtered line
list: each kept serialized line becomes a table cell; when its first parsed
segment is a literal containing a colon, the text before the first colon is
split off as a column heading; a header row is added to the sibling prefix
when any heading is non-empty; the first and last cell lines are wrapped in
row tags; the undecorated lines are snapshotted and everything reparsed. -/
def addTablesBody (fmt : NodeFormat) (lines : List Chars) : NodeFormat :=
  let pairs := lines.map (fun line =>
    match (parseLine fmt.fieldDict line).headD (TPart.text []) with
    | TPart.text t =>
      if ':' ∈ t then
        (pyStrip (splitColonOnce line).1, pyStrip (splitColonOnce line).2)
      else ([], pyStrip line)
    | TPart.field _ => ([], pyStrip line))
  let headings := pairs.map (fun p => p.1)
  let tableTag := "<table border=\"1\" cellpadding=\"3\">".toList
  let pre :=
    if headings.any (fun h => h ≠ []) then
      tableTag ++ "<tr>".toList ++
        (headings.map (fun h => "<th>".toList ++ h ++ "</th>".toList)).flatten ++
        "</tr>".toList
    else tableTag
  let newLines := pairs.map (fun p => "<td>".toList ++ p.2 ++ "</td>".toList)
  let newLines := (newLines.modifyHead (fun l => "<tr>".toList ++ l)).modifyLast
    (fun l => l ++ "</tr>".toList)
  updateLineParsing
    { fmt with
      siblingPrefix := pre
      siblingSuffix := "</table>".toList
      origOutputLines := fmt.outputLines
      outputLines := newLines.map (fun l => [TPart.text l]) }

/-- NodeFormat.addTables.  Two statements in the source raise an uncaught
IndexError: self.parseLine(line)[0] inside the loop when a kept line is
whitespace-only (its parse is the empty list), and newLines[0] after the
loop when every serialized line is empty so the filtered list is empty;
the latter holds for any format without output lines, whose
getOutputLines() is [""].  The model returns none for the escaped
exception (on the second path the source has already assigned
siblingPrefix and siblingSuffix when it raises, but the exception
propagates out of addTables, so no theorem here relies on that partially
mutated state); the guards make the headD default in addTablesBody
unreachable on the some path. -/
def addTables (fmt : NodeFormat) : Option NodeFormat :=
  let lines := (getOutputLines fmt true).filter (fun l => l ≠ [])
  if lines.any (fun l => (parseLine fmt.fieldDict l).isEmpty) then none
  else if lines.isEmpty then none
  else some (addTablesBody fmt lines)

/-- NodeFormat.clearBulletsAndTables: clear the sibling tags and, when an
undecorated snapshot exists, restore it as the output lines and reparse;
the snapshot is emptied in every case. -/
def clearBulletsAndTables (fmt : NodeFormat) : NodeFormat :=
  let f1 := { fmt with siblingPrefix := ([] : Chars), siblingSuffix := ([] : Chars) }
  if !f1.origOutputLines.isEmpty then
    { updateLineParsing { f1 with outputLines := f1.origOutputLines } with
        origOutputLines := [] }
  else { f1 with origOutputLines := [] }

/-- Modelled from the spec: treenode.TreeNode is outside the repository
slice.  A node object: its unique id, format-type name, field-value map,
ordered child list (references to other node objects) and its stored spot
set.  Spots are modelled as paths of object references from the top level,
root first, ending at this node (S3: a Spot is (node, parent spot), so a
spot is exactly its parent chain). -/
structure TNode where
  uId : Nat
  formatName : Chars
  data : NodeData
  childList : List Nat
  spotRefs : List (List Nat)
deriving DecidableEq, Repr

/-- The Python object heap holding node objects: node references are
indices into it (reference semantics: an object keeps its identity however
dictionary keys change). -/
abbrev Heap := Nat → TNode

/-- Update one node object in place. -/
def heapSet (h : Heap) (i : Nat) (node : TNode) : Heap :=
  fun j => if j = i then node else h j

/-- TreeStructure: the identity table mapping uid to node object, the
top-level child list (the structure's own childList) and the format
registry. -/
structure TreeStruct where
  nodeDict : List (Nat × Nat)
  topIds : List Nat
  formats : List (Chars × NodeFormat)

/-- Modelled from the spec: treenode.TreeNode.descendantGen is outside the
repository slice; a generator stepping through the node and every
descendant of its branch depth first through the child lists (fuel bounds
the recursion; any fuel at least the branch depth is enough). -/
def descendantGen (h : Heap) : Nat → Nat → List Nat
  | 0, _ => []
  | fuel + 1, oi => oi :: ((h oi).childList.map (descendantGen h fuel)).flatten

/-- Whether consecutive path entries are parent and child in the heap. -/
def chainOk (h : Heap) : List Nat → Bool
  | [] => true
  | [_] => true
  | a :: b :: rest => (h a).childList.contains b && chainOk h (b :: rest)

/-- Modelled from the spec: a spot is valid when its node is reachable from
the top-level list along the stored parent chain (S3's invariant tying
spots to the child-identity graph; used for
treenode.TreeNode.removeInvalidSpotRefs, outside the repository slice). -/
def isValidSpot (s : TreeStruct) (h : Heap) (p : List Nat) : Bool :=
  match p with
  | [] => false
  | a :: _ => s.topIds.contains a && chainOk h p

/-- All paths of length at most fuel that start at a given object and
follow child lists (used to enumerate the spots an object would have). -/
def pathsFrom (h : Heap) : Nat → Nat → List (List Nat)
  | 0, _ => []
  | fuel + 1, a =>
    [a] :: ((h a).childList.map (fun c =>
      (pathsFrom h fuel c).map (fun p => a :: p))).flatten

/-- The valid spots of an object: top-level-rooted child-list paths ending
at it, enumerated to the given depth. -/
def spotsFor (h : Heap) (s : TreeStruct) (fuel : Nat) (m : Nat) : List (List Nat) :=
  ((s.topIds.map (pathsFrom h fuel)).flatten).filter
    (fun p => p.getLastD 0 = m)

/-- TreeStructure.deleteNodeSpot: remove the spot's node from its parent's
child list (the structure's own top list when the spot has no parent spot),
then walk the branch; a node with at most one stored spot is deleted from
the identity table and its spots cleared, any other node has its invalid
spots pruned (treenode list.remove raises ValueError on a missing element;
the call site always passes a present child, modelled by List.erase). -/
def deleteNodeSpot (h : Heap) (s : TreeStruct) (spot : List Nat) (fuel : Nat) :
    Heap × TreeStruct :=
  let n := spot.getLastD 0
  let hs1 :=
    match spot.dropLast with
    | [] => (h, { s with topIds := s.topIds.erase n })
    | ps =>
      let pid := ps.getLastD 0
      (heapSet h pid { h pid with childList := (h pid).childList.erase n }, s)
  (descendantGen hs1.1 fuel n).foldl
    (fun st m =>
      if (st.1 m).spotRefs.length ≤ 1 then
        (heapSet st.1 m { st.1 m with spotRefs := [] },
         { st.2 with
            nodeDict := st.2.nodeDict.eraseP (fun kv => kv.1 = (st.1 m).uId) })
      else
        (heapSet st.1 m
          { st.1 m with
            spotRefs := (st.1 m).spotRefs.filter (isValidSpot st.2 st.1) },
         st.2))
    hs1

/-- One iteration of TreeStructure.replaceDuplicateIds: a node whose uid
appears in the duplicate dictionary is deleted from the table, given a
freshly minted id (the k-th minted uuid is fresh k, modelling
uuid.uuid1().hex) and re-inserted under it. -/
def replaceDupStep (dup : List Nat) (fresh : Nat → Nat)
    (st : Heap × List (Nat × Nat) × Nat) (oi : Nat) :
    Heap × List (Nat × Nat) × Nat :=
  let node := st.1 oi
  if node.uId ∈ dup then
    (heapSet st.1 oi { node with uId := fresh st.2.2 },
     pyDictSet (st.2.1.eraseP (fun kv => kv.1 = node.uId)) (fresh st.2.2) oi,
     st.2.2 + 1)
  else st

/-- TreeStructure.replaceDuplicateIds: walk a snapshot of the identity
table's node objects, re-keying every node whose uid is a duplicate. -/
def replaceDuplicateIds (h : Heap) (s : TreeStruct) (dup : List Nat)
    (fresh : Nat → Nat) : Heap × TreeStruct :=
  let res := (s.nodeDict.map (fun kv => kv.2)).foldl
    (replaceDupStep dup fresh) (h, s.nodeDict, 0)
  (res.1, { s with nodeDict := res.2.1 })

/-- Python list.insert(i, x): insert before index i, appending when the
index is at or beyond the end. -/
def pyListInsert {α : Type} (l : List α) (i : Nat) (x : α) : List α :=
  if i ≥ l.length then l ++ [x] else l.take i ++ x :: l.drop i

/-- Modelled from the spec: treenode.TreeNode.addSpotRef is outside the
repository slice; attaching a node under a parent creates the spots pairing
the node with each parent spot (an empty parent path for a top-level
attach), and new spots propagate to the children (fuel bounds the
recursion over the branch). -/
def addSpotRef (fuel : Nat) (h : Heap) (oi : Nat) (parentPaths : List (List Nat)) :
    Heap :=
  match fuel with
  | 0 => h
  | fuel + 1 =>
    let node := h oi
    let newPaths := (parentPaths.map (fun p => p ++ [oi])).filter
      (fun p => !node.spotRefs.contains p)
    if newPaths = [] then h
    else
      let h1 := heapSet h oi { node with spotRefs := node.spotRefs ++ newPaths }
      node.childList.foldl (fun hh c => addSpotRef fuel hh c ((hh oi).spotRefs)) h1

/-- One iteration of addNodesFromStruct's splice loop: insert one source
top-level node into the parent's child list (the target's own top list when
parent is none) at the running position, -1 appending, then add the new
spots for it under every parent spot. -/
def addNodesSpliceStep (parent : Option Nat) (fuel : Nat)
    (st : Heap × TreeStruct × Int) (oi : Nat) : Heap × TreeStruct × Int :=
  let hh := st.1
  let t := st.2.1
  let pos := st.2.2
  let next : Heap × TreeStruct × Int :=
    if pos ≥ 0 then
      match parent with
      | some pid =>
        (heapSet hh pid
          { hh pid with childList := pyListInsert (hh pid).childList pos.toNat oi },
         t, pos + 1)
      | none =>
        (hh, { t with topIds := pyListInsert t.topIds pos.toNat oi }, pos + 1)
    else
      match parent with
      | some pid =>
        (heapSet hh pid { hh pid with childList := (hh pid).childList ++ [oi] },
         t, pos)
      | none => (hh, { t with topIds := t.topIds ++ [oi] }, pos)
  let parentPaths :=
    match parent with
    | none => [([] : List Nat)]
    | some pid => (next.1 pid).spotRefs
  (addSpotRef fuel next.1 oi parentPaths, next.2.1, next.2.2)

/-- TreeStructure.addNodesFromStruct: union the source structure's formats
into the target registry (treeformats.addTypeIfMissing is outside the
repository slice; modelled from the spec: a type missing here is copied in,
a same-named type already present is kept), write every source node into
the target identity table under its uid, then splice the source's top-level
nodes into the parent's child list (the target's own top list when parent
is none, the source's parent == self case) at the given position, -1
appending, and add the new spots. -/
def addNodesFromStruct (h : Heap) (tgt src : TreeStruct) (parent : Option Nat)
    (position : Int) (fuel : Nat) : Heap × TreeStruct :=
  let fmts := src.formats.foldl
    (fun fs nmfmt => if (dictGet fs nmfmt.1).isSome then fs else fs ++ [nmfmt])
    tgt.formats
  let d := src.nodeDict.foldl (fun d kv => pyDictSet d (h kv.2).uId kv.2)
    tgt.nodeDict
  let res := src.topIds.foldl (addNodesSpliceStep parent fuel)
    (h, { tgt with nodeDict := d, formats := fmts }, position)
  (res.1, res.2.1)

/-! ### Concrete instances used by the claims -/

/-- Modelled from the spec: the plain Text field capability renders the
stored value verbatim (render(value) -> text), missing data as empty. -/
def textOut : FieldOut := fun name node _ _ => (dictGet node name).getD []

/-- Modelled from the spec: the plain Text field capability stores title
text verbatim (parseFromTitle(text) -> storedValue, never failing). -/
def textCap : Chars → Chars → Option Chars := fun _ t => some t

/-- A field table with text fields A and B. -/
def exFieldDictAB : List (Chars × Field) :=
  [("A".toList, ⟨"A".toList⟩), ("B".toList, ⟨"B".toList⟩)]

/-- A base format over fields A and B (no decoration, not HTML). -/
def exFmtBase : NodeFormat :=
  { name := "TYPE".toList
    fieldDict := exFieldDictAB
    titleLine := []
    outputLines := []
    origOutputLines := []
    siblingPrefix := []
    siblingSuffix := []
    spaceBetween := true
    formatHtml := false
    useBullets := false
    useTables := false
    childType := []
    outputSeparator := [',', ' '] }

/-- The spec's blank-line example: one output line "{*A*}, {*B*}". -/
def exFmtAB : NodeFormat :=
  { exFmtBase with
    outputLines := [parseLine exFieldDictAB "{*A*}, {*B*}".toList] }

/-- A field table with text fields First and Last. -/
def exFieldDictFL : List (Chars × Field) :=
  [("First".toList, ⟨"First".toList⟩), ("Last".toList, ⟨"Last".toList⟩)]

/-- The spec's title example: title line "{*First*} {*Last*}". -/
def exFmtFL : NodeFormat :=
  { exFmtBase with
    fieldDict := exFieldDictFL
    titleLine := parseLine exFieldDictFL "{*First*} {*Last*}".toList }

/-- A capability whose Last field rejects every title text (a field type
whose parseFromTitle raises ValueError, e.g. a numeric field on
non-numeric text); First stores verbatim. -/
def capLastFails : Chars → Chars → Option Chars :=
  fun n t => if n = "Last".toList then none else some t

/-- A format like exFmtFL whose title separator is a hyphen (not pure
whitespace), so the fallback path cannot fire. -/
def exFmtFLDash : NodeFormat :=
  { exFmtBase with
    fieldDict := exFieldDictFL
    titleLine := parseLine exFieldDictFL "{*First*}-{*Last*}".toList }

/-- An HTML format whose second output line is an optional field followed
by a mixed-case break tag: "{*B*}<Br>". -/
def exFmtHtmlBr : NodeFormat :=
  { exFmtBase with
    formatHtml := true
    outputLines :=
      [[TPart.text "keep".toList],
       parseLine exFieldDictAB "{*B*}<Br>".toList] }

/-- Like exFmtHtmlBr with a lowercase break tag: "{*B*}<br>". -/
def exFmtHtmlLower : NodeFormat :=
  { exFmtBase with
    formatHtml := true
    outputLines :=
      [[TPart.text "keep".toList],
       parseLine exFieldDictAB "{*B*}<br>".toList] }

/-- The empty node object (unused heap slots). -/
def blankNode : TNode := ⟨0, [], [], [], []⟩

/-- The deletion counterexample heap: objects 0 (uid 10) and 3 (uid 13) are
top-level; both have the cloned object 1 (uid 11) as their only child;
object 1 has object 2 (uid 12) as its only child.  Every stored spot set is
exactly the valid spot set. -/
def orphanHeap : Heap := fun i =>
  if i = 0 then ⟨10, [], [], [1], [[0]]⟩
  else if i = 1 then ⟨11, [], [], [2], [[0, 1], [3, 1]]⟩
  else if i = 2 then ⟨12, [], [], [], [[0, 1, 2], [3, 1, 2]]⟩
  else if i = 3 then ⟨13, [], [], [1], [[3]]⟩
  else blankNode

/-- The structure over orphanHeap: all four uids in the identity table,
objects 0 and 3 top-level. -/
def orphanStruct : TreeStruct := ⟨[(10, 0), (11, 1), (12, 2), (13, 3)], [0, 3], []⟩

/-- Merge counterexample: the target holds object 0 under uid 5 with data
k=old; the source holds the distinct object 1, also under uid 5, with data
k=new. -/
def mergeHeap : Heap := fun i =>
  if i = 0 then ⟨5, [], [("k".toList, "old".toList)], [], [[0]]⟩
  else if i = 1 then ⟨5, [], [("k".toList, "new".toList)], [], []⟩
  else blankNode

/-- The merge target structure (uid 5 is object 0). -/
def mergeTgt : TreeStruct := ⟨[(5, 0)], [0], []⟩

/-- The merge source structure (uid 5 is object 1). -/
def mergeSrc : TreeStruct := ⟨[(5, 1)], [1], []⟩

/-! ### C1 -/

/-- C1: refuted on the code — deleting spot [0,1,2] (object 2, uid 12,
shown under the cloned parent object 1 within top object 0) removes object
2 from the parent's child list, which invalidates both of its spots at
once; the loop sees two stored spots, prunes them all, and leaves uid 12 in
nodeDict with zero spots, unreachable from the top level.  The spot was
valid and the stored spot sets matched the valid spot sets before the
call, so the input state satisfies the structural invariants. -/
theorem C1_deleteNodeSpot_orphan_leak :
    isValidSpot orphanStruct orphanHeap [0, 1, 2] = true ∧
    (orphanHeap 2).spotRefs = [[0, 1, 2], [3, 1, 2]] ∧
    spotsFor orphanHeap orphanStruct 6 2 = [[0, 1, 2], [3, 1, 2]] ∧
    (deleteNodeSpot orphanHeap orphanStruct [0, 1, 2] 6).2.nodeDict =
      [(10, 0), (11, 1), (12, 2), (13, 3)] ∧
    ((deleteNodeSpot orphanHeap orphanStruct [0, 1, 2] 6).1 2).spotRefs = [] ∧
    spotsFor (deleteNodeSpot orphanHeap orphanStruct [0, 1, 2] 6).1
      (deleteNodeSpot orphanHeap orphanStruct [0, 1, 2] 6).2 6 2 = [] ∧
    ((deleteNodeSpot orphanHeap orphanStruct [0, 1, 2] 6).1 1).childList = [] := by
  decide

/-! ### C4 -/

/-- C4 counterexample: the claim says extractTitleData "AnnLee" signals
failure, but the separator of "{*First*} {*Last*}" is a single space, so
the whitespace fallback fires and the call succeeds, assigning the whole
string to First and the empty string to Last. -/
theorem C4_AnnLee_fallback_succeeds :
    extractTitleData exFmtFL textCap "AnnLee".toList [] =
      some (true, [("First".toList, "AnnLee".toList), ("Last".toList, [])]) := by
  decide

/-- C4 amended: extractTitleData "Ann Lee" succeeds with First = Ann and
Last = Lee; extractTitleData "AnnLee" also succeeds, through the
whitespace-separator fallback, assigning the entire input to First and the
empty string to Last. -/
theorem C4_extractTitleData_amended :
    extractTitleData exFmtFL textCap "Ann Lee".toList [] =
      some (true, [("First".toList, "Ann".toList), ("Last".toList, "Lee".toList)]) ∧
    extractTitleData exFmtFL textCap "AnnLee".toList [] =
      some (true, [("First".toList, "AnnLee".toList), ("Last".toList, [])]) := by
  decide

/-! ### C5 -/

/-- C5 counterexample: with a Last field whose title conversion fails
(ValueError), extractTitleData "Ann Lee" returns False yet has already
stored First = Ann into the data dictionary passed to it: the dictionary
is modified on a failure path. -/
theorem C5_partial_mutation_on_failure :
    extractTitleData exFmtFL capLastFails "Ann Lee".toList [] =
      some (false, [("First".toList, "Ann".toList)]) ∧
    [("First".toList, "Ann".toList)] ≠ ([] : NodeData) := by
  decide

/-! ### C9 -/

/-- C9 counterexample: merging a source whose uid 5 collides with the
target's uid 5 is not aborted: the top-level splice happens and the
identity-table entry for uid 5 is silently overwritten with the source's
object (data k=new replacing k=old). -/
theorem C9_merge_overwrites_colliding_id :
    (addNodesFromStruct mergeHeap mergeTgt mergeSrc none (-1) 5).2.nodeDict =
      [(5, 1)] ∧
    dictGet (addNodesFromStruct mergeHeap mergeTgt mergeSrc none (-1) 5).2.nodeDict 5 =
      some 1 ∧
    (mergeHeap 1).data ≠ (mergeHeap 0).data ∧
    (addNodesFromStruct mergeHeap mergeTgt mergeSrc none (-1) 5).2.topIds = [0, 1] := by
  decide

/-! ### C8 -/

/-- C8 counterexample: the dropped second line renders to the mixed-case
tag <Br>, a case variant of the break tag, yet _endTagRe matches only the
all-lowercase and all-uppercase spellings, so nothing is appended to the
kept line: case-insensitive matching, as the claim states it, is refuted. -/
theorem C8_mixed_case_tag_not_appended :
    formatOutput exFmtHtmlBr textOut [("B".toList, [])] false false =
      ["keep".toList] ∧
    endTagMatch "<Br>".toList = none ∧
    ["keep".toList] ≠ ["keep<Br>".toList] := by
  decide

/-! ### C2: blank-line suppression -/

/-- The number of field tokens in a template line. -/
def numFieldTokens : List TPart → Nat
  | [] => 0
  | TPart.field _ :: r => numFieldTokens r + 1
  | TPart.text _ :: r => numFieldTokens r

/-- The number of field tokens of a line that render non-empty. -/
def numFullFields (fo : FieldOut) (node : NodeData) (pt html : Bool) :
    List TPart → Nat
  | [] => 0
  | TPart.field f :: r =>
    (if fo f.name node pt html = [] then 0 else 1) + numFullFields fo node pt html r
  | TPart.text _ :: r => numFullFields fo node pt html r

/-- The number of field tokens of a line that render empty. -/
def numEmptyFields (fo : FieldOut) (node : NodeData) (pt html : Bool) :
    List TPart → Nat
  | [] => 0
  | TPart.field f :: r =>
    (if fo f.name node pt html = [] then 1 else 0) + numEmptyFields fo node pt html r
  | TPart.text _ :: r => numEmptyFields fo node pt html r

/-- The rendered text of a template line. -/
def renderLineText (fo : FieldOut) (node : NodeData) (pt html : Bool) :
    List TPart → Chars
  | [] => []
  | TPart.field f :: r => fo f.name node pt html ++ renderLineText fo node pt html r
  | TPart.text t :: r =>
    (if !html && !pt then xmlEscape t
     else if html && pt then removeMarkup t else t) ++ renderLineText fo node pt html r

/-- The keep condition as the specification words it: keepBlanks is true,
or at least one field token rendered non-empty, or the line has no field
tokens at all. -/
def lineKept (fo : FieldOut) (node : NodeData) (pt html kb : Bool)
    (line : List TPart) : Bool :=
  kb || decide (0 < numFullFields fo node pt html line) ||
    decide (numFieldTokens line = 0)

theorem formatLine_foldl (fo : FieldOut) (node : NodeData) (pt html : Bool)
    (line : List TPart) :
    ∀ acc : Chars × Nat × Nat,
      line.foldl
        (fun acc part =>
          match part with
          | TPart.field f =>
            let text := fo f.name node pt html
            if text = [] then (acc.1 ++ text, acc.2.1 + 1, acc.2.2)
            else (acc.1 ++ text, acc.2.1, acc.2.2 + 1)
          | TPart.text t =>
            let t' :=
              if !html && !pt then xmlEscape t
              else if html && pt then removeMarkup t else t
            (acc.1 ++ t', acc.2.1, acc.2.2)) acc =
      (acc.1 ++ renderLineText fo node pt html line,
       acc.2.1 + numEmptyFields fo node pt html line,
       acc.2.2 + numFullFields fo node pt html line) := by
  induction line with
  | nil => intro acc; simp [renderLineText, numEmptyFields, numFullFields]
  | cons p r ih =>
    intro acc
    cases p with
    | field f =>
      by_cases hf : fo f.name node pt html = []
      · simp only [List.foldl_cons, hf, if_pos rfl, renderLineText,
          numEmptyFields, numFullFields, ih]
        simp [hf]
        omega
      · simp only [List.foldl_cons, if_neg hf, renderLineText,
          numEmptyFields, numFullFields, ih]
        simp [hf, List.append_assoc]
        omega
    | text t =>
      simp only [List.foldl_cons, renderLineText, numEmptyFields,
        numFullFields, ih]
      simp [List.append_assoc]

theorem formatLine_eq (fo : FieldOut) (node : NodeData) (pt html : Bool)
    (line : List TPart) :
    formatLine fo node pt html line =
      (renderLineText fo node pt html line,
       numEmptyFields fo node pt html line,
       numFullFields fo node pt html line) := by
  have := formatLine_foldl fo node pt html line ([], 0, 0)
  simpa [formatLine] using this

theorem numFields_split (fo : FieldOut) (node : NodeData) (pt html : Bool)
    (line : List TPart) :
    numEmptyFields fo node pt html line + numFullFields fo node pt html line =
      numFieldTokens line := by
  induction line with
  | nil => simp [numEmptyFields, numFullFields, numFieldTokens]
  | cons p r ih =>
    cases p with
    | field f =>
      by_cases hf : fo f.name node pt html = [] <;>
        simp [numEmptyFields, numFullFields, numFieldTokens, hf, ih] <;> omega
    | text t => simp [numEmptyFields, numFullFields, numFieldTokens, ih]

theorem formatOutputStep_keep_iff (fo : FieldOut) (node : NodeData)
    (pt kb html : Bool) (line : List TPart) :
    (kb || (formatLine fo node pt html line).2.2 ≠ 0 ||
      (formatLine fo node pt html line).2.1 = 0) = lineKept fo node pt html kb line := by
  rw [formatLine_eq]
  have hsplit := numFields_split fo node pt html line
  simp only [lineKept]
  cases kb
  · simp only [Bool.false_or]
    by_cases h1 : numFullFields fo node pt html line = 0
    · by_cases h2 : numEmptyFields fo node pt html line = 0 <;>
        · simp [h1, h2]; omega
    · simp [h1]; omega
  · simp

theorem formatOutputStep_kept (fo : FieldOut) (node : NodeData)
    (pt kb html : Bool) (line : List TPart) (result : List Chars)
    (h : lineKept fo node pt html kb line = true) :
    formatOutputStep fo node pt kb html result line =
      result ++ [renderLineText fo node pt html line] := by
  unfold formatOutputStep
  rw [if_pos]
  · rw [formatLine_eq]
  · rw [formatOutputStep_keep_iff]
    exact h

theorem formatOutputStep_dropped (fo : FieldOut) (node : NodeData)
    (pt kb html : Bool) (line : List TPart) (result : List Chars)
    (h : lineKept fo node pt html kb line = false) :
    formatOutputStep fo node pt kb html result line =
      if html && !pt && result ≠ [] then
        match endTagMatch (renderLineText fo node pt html line) with
        | some tag => result.dropLast ++ [result.getLastD [] ++ tag]
        | none => result
      else result := by
  unfold formatOutputStep
  rw [if_neg]
  · rw [formatLine_eq]
  · rw [formatOutputStep_keep_iff]
    simp [h]

theorem formatOutput_fold_length (fo : FieldOut) (node : NodeData)
    (pt kb html : Bool) (L : List (List TPart)) :
    (L.foldl (formatOutputStep fo node pt kb html) []).length =
      (L.filter (lineKept fo node pt html kb)).length := by
  induction L using List.reverseRecOn with
  | nil => simp
  | append_singleton l x ih =>
    rw [List.foldl_append, List.foldl_cons, List.foldl_nil, List.filter_append]
    by_cases hx : lineKept fo node pt html kb x = true
    · rw [formatOutputStep_kept fo node pt kb html x _ hx]
      simp [hx, ih]
    · rw [formatOutputStep_dropped fo node pt kb html x _ (by simp_all)]
      have hfilter : List.filter (lineKept fo node pt html kb) [x] = [] := by
        rw [List.filter_singleton]
        simp [hx]
      rw [hfilter, List.append_nil]
      by_cases hcond : (html && !pt &&
          (l.foldl (formatOutputStep fo node pt kb html) [] ≠ [] : Bool)) = true
      · rw [if_pos hcond]
        simp only [Bool.and_eq_true, ne_eq, decide_eq_true_eq] at hcond
        have hne := hcond.2
        cases hm : endTagMatch (renderLineText fo node pt html x) with
        | some tag =>
          simp only [hm]
          rw [List.length_append, List.length_dropLast, List.length_singleton]
          have : 0 < (l.foldl (formatOutputStep fo node pt kb html) []).length :=
            List.length_pos.mpr hne
          omega
        | none =>
          simp only [hm]
          exact ih
      · rw [if_neg hcond]
        exact ih

theorem formatOutput_fold_plain (fo : FieldOut) (node : NodeData)
    (pt kb html : Bool) (hplain : html = false ∨ pt = true)
    (L : List (List TPart)) :
    L.foldl (formatOutputStep fo node pt kb html) [] =
      (L.filter (lineKept fo node pt html kb)).map
        (renderLineText fo node pt html) := by
  induction L using List.reverseRecOn with
  | nil => simp
  | append_singleton l x ih =>
    rw [List.foldl_append, List.foldl_cons, List.foldl_nil, List.filter_append]
    by_cases hx : lineKept fo node pt html kb x = true
    · rw [formatOutputStep_kept fo node pt kb html x _ hx]
      simp [hx, ih]
    · rw [formatOutputStep_dropped fo node pt kb html x _ (by simp_all)]
      have hfilter : List.filter (lineKept fo node pt html kb) [x] = [] := by
        rw [List.filter_singleton]
        simp [hx]
      rw [hfilter, List.append_nil, if_neg, ih]
      rcases hplain with h | h <;> simp [h]

/-- C2: a rendered output line is kept exactly when keepBlanks is true, or
at least one field token rendered non-empty, or the line contains no field
tokens; a line whose field tokens all rendered empty is dropped.  The
result length always equals the number of kept lines, and outside HTML
non-plain mode (where a dropped line may donate a trailing break tag to the
previous line) the result is exactly the rendered kept lines.  In
particular, for output line "\x7b*A*\x7d, \x7b*B*\x7d" with A and B empty
and keepBlanks false the line is dropped, and with A = "x" the single
rendered line is "x, ". -/
theorem C2_formatOutput_blank_line_suppression (fmt : NodeFormat)
    (fo : FieldOut) (node : NodeData) (pt kb : Bool) :
    ((formatOutput fmt fo node pt kb).length =
      (fmt.outputLines.filter (lineKept fo node pt fmt.formatHtml kb)).length) ∧
    (fmt.formatHtml = false ∨ pt = true →
      formatOutput fmt fo node pt kb =
        (fmt.outputLines.filter (lineKept fo node pt fmt.formatHtml kb)).map
          (renderLineText fo node pt fmt.formatHtml)) ∧
    formatOutput exFmtAB textOut [("A".toList, []), ("B".toList, [])]
      false false = [] ∧
    formatOutput exFmtAB textOut [("A".toList, "x".toList), ("B".toList, [])]
      false false = ["x, ".toList] := by
  refine ⟨?_, ?_, by decide, by decide⟩
  · exact formatOutput_fold_length fo node pt kb fmt.formatHtml fmt.outputLines
  · intro h
    exact formatOutput_fold_plain fo node pt kb fmt.formatHtml h fmt.outputLines

/-- C2 witness: the theorem instantiated at the example format and a node
with A = "x", B = "": the single kept line renders to "x, ". -/
theorem C2_formatOutput_witness :
    formatOutput exFmtAB textOut [("A".toList, "x".toList), ("B".toList, [])]
      false false = ["x, ".toList] :=
  (C2_formatOutput_blank_line_suppression exFmtAB textOut
    [("A".toList, "x".toList), ("B".toList, [])] false false).2.2.2

/-- C8 amended: in HTML non-plain mode with keepBlanks false, when the last
output line is dropped (no full fields, some empty field) and its rendered
text ends in a standalone line-break or horizontal-rule tag written
entirely in lowercase or entirely in uppercase (br, BR, hr, HR, optionally
with spaces or slashes before the closing bracket) and the earlier lines
produced at least one kept line, the trailing tag is appended to the last
kept line.  Mixed-case spellings such as <Br> are not matched. -/
theorem C8_amended_end_tag_append (fmt : NodeFormat) (fo : FieldOut)
    (node : NodeData) (lines : List (List TPart)) (l : List TPart) (tag : Chars)
    (hhtml : fmt.formatHtml = true)
    (hlines : fmt.outputLines = lines ++ [l])
    (hdrop : lineKept fo node false true false l = false)
    (htag : endTagMatch (renderLineText fo node false true l) = some tag)
    (hne : formatOutput { fmt with outputLines := lines } fo node false false ≠ []) :
    formatOutput fmt fo node false false =
      (formatOutput { fmt with outputLines := lines } fo node false false).dropLast ++
        [(formatOutput { fmt with outputLines := lines } fo node false false).getLastD []
          ++ tag] ∧
    endTagMatch "x<br/>".toList = some "<br/>".toList ∧
    endTagMatch "x<BR  >".toList = some "<BR  >".toList ∧
    endTagMatch "x<hr>".toList = some "<hr>".toList ∧
    endTagMatch "x<Br>".toList = none := by
  refine ⟨?_, by decide, by decide, by decide, by decide⟩
  have hbase : List.foldl (formatOutputStep fo node false false true) [] lines ≠ [] := by
    simp only [formatOutput, hhtml] at hne
    exact hne
  simp only [formatOutput, hlines, hhtml]
  rw [List.foldl_append, List.foldl_cons, List.foldl_nil,
    formatOutputStep_dropped fo node false false true l _ hdrop,
    if_pos (by simp [hbase]), htag]

/-- C8 amended witness: with output lines "keep" and "\x7b*B*\x7d<br>" and
B empty, the dropped second line's lowercase break tag is appended to the
kept first line. -/
theorem C8_amended_witness :
    formatOutput exFmtHtmlLower textOut [("B".toList, [])] false false =
      ["keep<br>".toList] := by
  have h := (C8_amended_end_tag_append exFmtHtmlLower textOut [("B".toList, [])]
    [[TPart.text "keep".toList]]
    (parseLine exFieldDictAB "{*B*}<br>".toList) "<br>".toList
    rfl (by decide) (by decide) (by decide) (by decide)).1
  exact h.trans (by decide)

/-- C5 amended: on the pattern-mismatch failure path (the regex does not
match and the concatenated separator text is not pure whitespace),
extractTitleData reports failure and returns the data dictionary exactly as
it was passed: nothing is added, removed or changed. -/
theorem C5_mismatch_leaves_data_unchanged (fmt : NodeFormat)
    (cap : Chars → Chars → Option Chars) (title : Chars) (data : NodeData)
    (hmatch : reMatchItems (titlePattern fmt.titleLine).1 title = none)
    (hsep : pyStrip (titlePattern fmt.titleLine).2.2 ≠ []) :
    extractTitleData fmt cap title data = some (false, data) := by
  unfold extractTitleData
  simp only []
  rw [hmatch, if_neg hsep]

/-- C5 amended witness: with hyphen-separated title template and title
"AnnLee" (no hyphen), the call fails and the passed dictionary comes back
unchanged. -/
theorem C5_mismatch_witness :
    extractTitleData exFmtFLDash textCap "AnnLee".toList
      [("z".toList, "w".toList)] =
      some (false, [("z".toList, "w".toList)]) :=
  C5_mismatch_leaves_data_unchanged exFmtFLDash textCap "AnnLee".toList
    [("z".toList, "w".toList)] (by decide) (by decide)

/-! ### C3 -/

/-- C3: for a template segment of the field-reference form with any
modifier, parseField returns the registered field object exactly when the
modifier is empty and the name is in the owning format's field table; an
unregistered name or a non-empty modifier (asterisks, ?, !, &, #) keeps the
segment as literal text; the function is total, so no error is raised. -/
theorem C3_parseField_graceful_degrade (fieldDict : List (Chars × Field))
    (mod nm : Chars) (hmod : modOk mod) (hnm : nm ≠ [])
    (hwc : ∀ c ∈ nm, isWordChar c = true) :
    (mod = [] →
      parseField fieldDict ('{' :: '*' :: (mod ++ nm ++ ['*', '}'])) =
        (match dictGet fieldDict nm with
         | some f => TPart.field f
         | none => TPart.text ('{' :: '*' :: (mod ++ nm ++ ['*', '}'])))) ∧
    (mod ≠ [] →
      parseField fieldDict ('{' :: '*' :: (mod ++ nm ++ ['*', '}'])) =
        TPart.text ('{' :: '*' :: (mod ++ nm ++ ['*', '}']))) ∧
    (dictGet fieldDict nm = none →
      parseField fieldDict ('{' :: '*' :: (mod ++ nm ++ ['*', '}'])) =
        TPart.text ('{' :: '*' :: (mod ++ nm ++ ['*', '}']))) := by
  have hmf := matchField_build mod nm [] hmod hnm hwc
  rw [List.append_nil] at hmf
  refine ⟨?_, ?_, ?_⟩
  · intro hm
    unfold parseField
    rw [hmf]
    dsimp only
    rw [if_pos hm]
  · intro hm
    unfold parseField
    rw [hmf]
    dsimp only
    rw [if_neg hm]
  · intro hdg
    unfold parseField
    rw [hmf]
    dsimp only
    by_cases hm : mod = []
    · rw [if_pos hm, hdg]
    · rw [if_neg hm]

/-- C3 witness: over a field table holding only A, the plain segment gives
the field object while a modifier or an unknown name keeps the text. -/
theorem C3_parseField_witness :
    parseField [("A".toList, ⟨"A".toList⟩)] "{*A*}".toList =
      TPart.field ⟨"A".toList⟩ ∧
    parseField [("A".toList, ⟨"A".toList⟩)] "{*?A*}".toList =
      TPart.text "{*?A*}".toList ∧
    parseField [("A".toList, ⟨"A".toList⟩)] "{*Zed*}".toList =
      TPart.text "{*Zed*}".toList := by
  refine ⟨?_, ?_, ?_⟩
  · exact ((C3_parseField_graceful_degrade [("A".toList, ⟨"A".toList⟩)]
      [] "A".toList (by decide) (by decide) (by decide)).1 rfl).trans (by decide)
  · exact (C3_parseField_graceful_degrade [("A".toList, ⟨"A".toList⟩)]
      "?".toList "A".toList (by decide) (by decide) (by decide)).2.1 (by decide)
  · exact (C3_parseField_graceful_degrade [("A".toList, ⟨"A".toList⟩)]
      [] "Zed".toList (by decide) (by decide) (by decide)).2.2 (by decide)

/-! ### C6: template round trip -/

theorem matchField_extend (t u m mod nm r : List Char)
    (h : matchField t = some (m, mod, nm, r)) :
    matchField (t ++ u) = some (m, mod, nm, r ++ u) := by
  obtain ⟨hm, ht, hnm, hwc, hmod⟩ := matchField_spec t m mod nm r h
  have hb := matchField_build mod nm (r ++ u) hmod hnm hwc
  rw [← hm] at hb
  rw [ht, List.append_assoc]
  exact hb

theorem matchField_none_of_append (t u : List Char)
    (h : matchField (t ++ u) = none) : t = [] ∨ matchField t = none := by
  cases t with
  | nil => exact Or.inl rfl
  | cons c r =>
    right
    cases hm : matchField (c :: r) with
    | none => rfl
    | some v =>
      obtain ⟨m, mod, nm, rest⟩ := v
      have := matchField_extend (c :: r) u m mod nm rest hm
      rw [List.cons_append] at this
      rw [List.cons_append] at h
      rw [this] at h
      exact absurd h (by simp)

theorem fieldSegmentsF_concat (fuel : Nat) :
    ∀ (cs acc : List Char),
      (fieldSegmentsF fuel cs acc).flatten = acc.reverse ++ cs := by
  induction fuel with
  | zero =>
    intro cs acc
    cases cs with
    | nil =>
      by_cases hacc : acc = [] <;> simp [fieldSegmentsF, hacc]
    | cons c rest =>
      by_cases hacc : acc = [] <;> simp [fieldSegmentsF, hacc]
  | succ fuel ih =>
    intro cs acc
    cases cs with
    | nil =>
      by_cases hacc : acc = [] <;> simp [fieldSegmentsF, hacc]
    | cons c rest =>
      rw [fieldSegmentsF]
      cases hm : matchField (c :: rest) with
      | none =>
        rw [ih rest (c :: acc)]
        simp
      | some v =>
        obtain ⟨m, mod, nm, rest'⟩ := v
        obtain ⟨-, hsplit, -, -, -⟩ := matchField_spec _ _ _ _ _ hm
        by_cases hacc : acc = []
        · simp only [hacc, if_pos rfl]
          simp [ih rest' [], ← hsplit]
        · simp only [if_neg hacc]
          simp [ih rest' [], ← hsplit]

theorem dictGet_mem {α β : Type} [DecidableEq α] (d : List (α × β)) (k : α)
    (v : β) (h : dictGet d k = some v) : (k, v) ∈ d := by
  induction d with
  | nil => simp [dictGet] at h
  | cons kv r ih =>
    rw [dictGet] at h
    by_cases hk : kv.1 = k
    · rw [if_pos hk] at h
      have hv := (Option.some.inj h).symm
      subst hv
      subst hk
      exact List.mem_cons_self _ _
    · rw [if_neg hk] at h
      exact List.mem_cons_of_mem _ (ih h)

theorem fieldSegmentsF_segments (fuel : Nat) :
    ∀ (cs acc : List Char), cs.length ≤ fuel →
      (acc = [] ∨ matchField (acc.reverse ++ cs) = none) →
      ∀ seg ∈ fieldSegmentsF fuel cs acc,
        matchField seg = none ∨
          ∃ mod nm, matchField seg = some (seg, mod, nm, []) := by
  have flushNone : ∀ (cs acc : List Char),
      (acc = [] ∨ matchField (acc.reverse ++ cs) = none) → acc ≠ [] →
      matchField acc.reverse = none := by
    intro cs acc hinv hacc
    rcases hinv with h | h
    · exact absurd h hacc
    · rcases matchField_none_of_append _ _ h with h2 | h2
      · exact absurd (by simpa using h2) hacc
      · exact h2
  induction fuel with
  | zero =>
    intro cs acc hlen hinv seg hseg
    cases cs with
    | nil =>
      by_cases hacc : acc = []
      · simp [fieldSegmentsF, hacc] at hseg
      · simp only [fieldSegmentsF, if_neg hacc, List.mem_singleton] at hseg
        subst hseg
        exact Or.inl (flushNone [] acc hinv hacc)
    | cons c rest => simp at hlen
  | succ fuel ih =>
    intro cs acc hlen hinv seg hseg
    cases cs with
    | nil =>
      by_cases hacc : acc = []
      · simp [fieldSegmentsF, hacc] at hseg
      · simp only [fieldSegmentsF, if_neg hacc, List.mem_singleton] at hseg
        subst hseg
        exact Or.inl (flushNone [] acc hinv hacc)
    | cons c rest =>
      rw [fieldSegmentsF] at hseg
      revert hseg
      cases hm : matchField (c :: rest) with
      | none =>
        intro hseg
        refine ih rest (c :: acc) (by simp at hlen; omega) ?_ seg hseg
        right
        simp only [List.reverse_cons, List.append_assoc, List.singleton_append]
        rcases hinv with h | h
        · rw [h]
          simpa using hm
        · simpa using h
      | some v =>
        obtain ⟨m, mod, nm, rest'⟩ := v
        intro hseg
        obtain ⟨hmeq, hsplit, hnm, hwc, hmod⟩ := matchField_spec _ _ _ _ _ hm
        have hmm : matchField m = some (m, mod, nm, []) := by
          have hb := matchField_build mod nm [] hmod hnm hwc
          rw [List.append_nil] at hb
          rw [hmeq]
          exact hb
        have hlen2 : rest'.length ≤ fuel := by
          have : (c :: rest).length = m.length + rest'.length := by
            rw [hsplit, List.length_append]
          have hm1 : 0 < m.length := by rw [hmeq]; simp
          simp only [List.length_cons] at this hlen
          omega
        simp only [List.mem_append, List.mem_cons] at hseg
        rcases hseg with hf | hf | hf
        · have hacc : acc ≠ [] := by
            by_cases h : acc = [] <;> simp [h] at hf ⊢
          rw [if_neg hacc] at hf
          simp only [List.mem_singleton] at hf
          subst hf
          exact Or.inl (flushNone (c :: rest) acc hinv hacc)
        · subst hf
          exact Or.inr ⟨mod, nm, hmm⟩
        · exact ih rest' [] hlen2 (Or.inl rfl) seg hf

theorem joinParts_cons (p : TPart) (r : List TPart) :
    joinParts (p :: r) =
      (match p with
       | TPart.field f => sepName f
       | TPart.text t => t) ++ joinParts r := by
  simp [joinParts]

theorem joinParts_map_parseField (fd : List (Chars × Field))
    (hfd : ∀ kv ∈ fd, kv.2.name = kv.1) :
    ∀ segs : List Chars,
      (∀ seg ∈ segs, matchField seg = none ∨
        ∃ mod nm, matchField seg = some (seg, mod, nm, [])) →
      joinParts (segs.map (parseField fd)) = segs.flatten := by
  intro segs
  induction segs with
  | nil => intro _; simp [joinParts]
  | cons seg rest ih =>
    intro hsegs
    rw [List.map_cons, joinParts_cons, List.flatten_cons,
      ih (fun s hs => hsegs s (List.mem_cons_of_mem _ hs))]
    congr 1
    rcases hsegs seg (List.mem_cons_self _ _) with hcl | ⟨mod, nm, hcl⟩
    · unfold parseField
      rw [hcl]
    · obtain ⟨hmeq, -, -, -, -⟩ := matchField_spec _ _ _ _ _ hcl
      unfold parseField
      rw [hcl]
      dsimp only
      by_cases hm : mod = []
      · rw [if_pos hm]
        cases hdg : dictGet fd nm with
        | none => rfl
        | some f =>
          dsimp only
          have hname : f.name = nm := hfd (nm, f) (dictGet_mem fd nm f hdg)
          rw [sepName, hname, hmeq, hm]
          simp
      · rw [if_neg hm]

theorem parseLine_joins (fd : List (Chars × Field))
    (hfd : ∀ kv ∈ fd, kv.2.name = kv.1) (s : Chars) :
    joinParts (parseLine fd s) = normalizeSpaces s := by
  unfold parseLine fieldSegments
  rw [joinParts_map_parseField fd hfd _
    (fieldSegmentsF_segments (normalizeSpaces s).length (normalizeSpaces s) []
      le_rfl (Or.inl rfl))]
  rw [fieldSegmentsF_concat]
  simp

theorem splitWordsAux_words (cs : List Char) :
    ∀ acc, (∀ c ∈ acc, isPySpace c = false) →
      ∀ w ∈ splitWordsAux cs acc,
        w ≠ [] ∧ ∀ c ∈ w, isPySpace c = false := by
  induction cs with
  | nil =>
    intro acc hacc w hw
    by_cases h : acc = []
    · simp [splitWordsAux, h] at hw
    · simp only [splitWordsAux, if_neg h, List.mem_singleton] at hw
      subst hw
      constructor
      · simpa using h
      · intro c hc
        exact hacc c (by simpa using hc)
  | cons c rest ih =>
    intro acc hacc w hw
    rw [splitWordsAux] at hw
    by_cases hsp : isPySpace c = true
    · rw [if_pos hsp] at hw
      rw [List.mem_append] at hw
      rcases hw with hw | hw
      · by_cases h : acc = []
        · simp [h] at hw
        · simp only [if_neg h, List.mem_singleton] at hw
          subst hw
          exact ⟨by simpa using h, fun d hd => hacc d (by simpa using hd)⟩
      · exact ih [] (by simp) w hw
    · rw [if_neg hsp] at hw
      refine ih (c :: acc) ?_ w hw
      intro d hd
      rcases List.mem_cons.mp hd with h | h
      · subst h
        simpa using hsp
      · exact hacc d h

theorem splitWordsAux_push (w : List Char) (hw : ∀ c ∈ w, isPySpace c = false) :
    ∀ (cs acc : List Char),
      splitWordsAux (w ++ cs) acc = splitWordsAux cs (w.reverse ++ acc) := by
  induction w with
  | nil => intro cs acc; simp
  | cons c r ih =>
    intro cs acc
    rw [List.cons_append, splitWordsAux,
      if_neg (by simp [hw c (List.mem_cons_self _ _)]),
      ih (fun d hd => hw d (List.mem_cons_of_mem _ hd))]
    simp

theorem splitWords_joinWords (ws : List (List Char))
    (hws : ∀ w ∈ ws, w ≠ [] ∧ ∀ c ∈ w, isPySpace c = false) :
    splitWords (joinWords ws) = ws := by
  induction ws with
  | nil => simp [joinWords, splitWords, splitWordsAux]
  | cons w ws ih =>
    obtain ⟨hw1, hw2⟩ := hws w (List.mem_cons_self _ _)
    cases ws with
    | nil =>
      show splitWords (joinWords [w]) = [w]
      unfold joinWords splitWords
      have := splitWordsAux_push w hw2 [] []
      rw [List.append_nil] at this
      rw [this, List.append_nil, splitWordsAux, if_neg (by simpa using hw1)]
      simp
    | cons w2 ws2 =>
      show splitWords (w ++ ' ' :: joinWords (w2 :: ws2)) = w :: w2 :: ws2
      unfold splitWords
      rw [splitWordsAux_push w hw2 _ [], List.append_nil, splitWordsAux,
        if_pos (by decide), if_neg (by simpa using hw1)]
      rw [List.reverse_reverse]
      have := ih (fun v hv => hws v (List.mem_cons_of_mem _ hv))
      unfold splitWords at this
      rw [this]
      simp

theorem normalizeSpaces_idem (cs : List Char) :
    normalizeSpaces (normalizeSpaces cs) = normalizeSpaces cs := by
  unfold normalizeSpaces
  rw [splitWords_joinWords (splitWords cs)
    (fun w hw => splitWordsAux_words cs [] (by simp) w hw)]

/-- C6: compiling a raw template line, serializing the compiled token list
back to text the way getTitleLine and getOutputLines do, and compiling
again gives exactly the first compiled token list; moreover the serialized
text is the whitespace-normalized original (the field table is consistent:
each stored field object carries its key as name, as addField guarantees). -/
theorem C6_parseLine_roundtrip (fmt : NodeFormat)
    (hfd : ∀ kv ∈ fmt.fieldDict, kv.2.name = kv.1) (s : Chars) :
    parseLine fmt.fieldDict
        (getTitleLine { fmt with titleLine := parseLine fmt.fieldDict s }) =
      parseLine fmt.fieldDict s ∧
    getTitleLine { fmt with titleLine := parseLine fmt.fieldDict s } =
      normalizeSpaces s := by
  have hjoin : getTitleLine { fmt with titleLine := parseLine fmt.fieldDict s } =
      normalizeSpaces s := parseLine_joins fmt.fieldDict hfd s
  refine ⟨?_, hjoin⟩
  rw [hjoin]
  unfold parseLine
  rw [normalizeSpaces_idem]

/-- C6 witness: the round trip at the example field table and the raw line
"\x7b*A*\x7d, \x7b*B*\x7d  x" (with doubled whitespace to see the
normalization). -/
theorem C6_parseLine_roundtrip_witness :
    parseLine exFmtAB.fieldDict
        (getTitleLine { exFmtAB with
          titleLine := parseLine exFmtAB.fieldDict "{*A*},  {*B*}  x".toList }) =
      parseLine exFmtAB.fieldDict "{*A*},  {*B*}  x".toList :=
  (C6_parseLine_roundtrip exFmtAB (by decide) "{*A*},  {*B*}  x".toList).1

/-! ### C7: decoration round trip -/

theorem reparse_lines (fd : List (Chars × Field)) (L : List (List TPart))
    (hnorm : ∀ l ∈ L, parseLine fd (joinParts l) = l) :
    (L.map joinParts).map (parseLine fd) = L := by
  rw [List.map_map]
  conv_rhs => rw [← List.map_id L]
  exact List.map_congr_left hnorm

theorem getOutputLines_false_eq (f : NodeFormat) (hne : f.outputLines ≠ []) :
    getOutputLines f false = f.outputLines.map joinParts := by
  unfold getOutputLines
  simp only []
  rw [show (false && !f.origOutputLines.isEmpty) = false from rfl]
  rw [if_neg (show ¬(false = true) from Bool.noConfusion)]
  rw [if_neg (show ¬((f.outputLines.map joinParts).isEmpty = true) from by
    simp [hne])]

theorem getOutputLines_true_eq (f : NodeFormat) (horig : f.origOutputLines ≠ []) :
    getOutputLines f true = f.origOutputLines.map joinParts := by
  unfold getOutputLines
  simp only []
  rw [show (true && !f.origOutputLines.isEmpty) = true from by simp [horig]]
  rw [if_pos (show (true : Bool) = true from rfl)]
  rw [if_neg (show ¬((f.origOutputLines.map joinParts).isEmpty = true) from by
    simp [horig])]

theorem clearBulletsAndTables_restores (fmt mid : NodeFormat)
    (hfd : mid.fieldDict = fmt.fieldDict)
    (horig : mid.origOutputLines = fmt.outputLines)
    (hne : fmt.outputLines ≠ [])
    (hnorm : ∀ l ∈ fmt.outputLines, parseLine fmt.fieldDict (joinParts l) = l) :
    (clearBulletsAndTables mid).outputLines = fmt.outputLines ∧
    (clearBulletsAndTables mid).siblingPrefix = [] ∧
    (clearBulletsAndTables mid).siblingSuffix = [] ∧
    (clearBulletsAndTables mid).origOutputLines = [] := by
  unfold clearBulletsAndTables
  simp only []
  rw [if_pos (by simp only [horig]; simpa using hne)]
  refine ⟨?_, rfl, rfl, rfl⟩
  show (updateLineParsing _).outputLines = fmt.outputLines
  unfold updateLineParsing
  show (getOutputLines _ false).map (parseLine mid.fieldDict) = fmt.outputLines
  rw [getOutputLines_false_eq _ (by simpa [horig] using hne)]
  dsimp only
  rw [horig, hfd]
  exact reparse_lines fmt.fieldDict fmt.outputLines hnorm

theorem addBullets_fields (fmt : NodeFormat) (hne : fmt.outputLines ≠ [])
    (hnorm : ∀ l ∈ fmt.outputLines, parseLine fmt.fieldDict (joinParts l) = l) :
    (addBullets fmt).fieldDict = fmt.fieldDict ∧
    (addBullets fmt).origOutputLines = fmt.outputLines := by
  refine ⟨rfl, ?_⟩
  unfold addBullets updateLineParsing
  simp only []
  rw [if_pos (by simpa using hne)]
  rw [getOutputLines_true_eq _ (by simpa using hne)]
  exact reparse_lines fmt.fieldDict fmt.outputLines hnorm

theorem addTables_eq_some (fmt fmtT : NodeFormat)
    (ht : addTables fmt = some fmtT) :
    fmtT = addTablesBody fmt
      ((getOutputLines fmt true).filter (fun l => l ≠ [])) := by
  unfold addTables at ht
  simp only [] at ht
  split at ht
  · exact absurd ht (by simp)
  · split at ht
    · exact absurd ht (by simp)
    · exact (Option.some.inj ht).symm

theorem addTablesBody_fields (fmt : NodeFormat) (L : List Chars)
    (hne : fmt.outputLines ≠ [])
    (hnorm : ∀ l ∈ fmt.outputLines, parseLine fmt.fieldDict (joinParts l) = l) :
    (addTablesBody fmt L).fieldDict = fmt.fieldDict ∧
    (addTablesBody fmt L).origOutputLines = fmt.outputLines := by
  refine ⟨rfl, ?_⟩
  unfold addTablesBody updateLineParsing
  simp only []
  rw [if_pos (by simpa using hne)]
  rw [getOutputLines_true_eq _ (by simpa using hne)]
  exact reparse_lines fmt.fieldDict fmt.outputLines hnorm

/-- An undecorated format with two compiled output lines, used by the C7
witness (its lines are non-blank, so addTables succeeds on it). -/
def exFmt7T : NodeFormat :=
  { exFmtBase with
    outputLines := [parseLine exFieldDictAB "Name: {*A*}".toList,
                    parseLine exFieldDictAB "{*B*}".toList] }

/-- The value addTables produces on exFmt7T (it succeeds there): the
decorated format used by the C7 witness. -/
def exFmt7Dec : NodeFormat := (addTables exFmt7T).getD exFmt7T

/-- C7: counterexample to the original claim.  On a format in the default
no-output state (outputLines = [], exactly what exFmtBase holds), addBullets
followed by clearBulletsAndTables does NOT restore the pre-decoration line
list: addBullets turns the empty list into one blank line and snapshots the
empty origOutputLines, so the clear cannot restore and the result is [[]],
not []; and addTables on the same format raises an uncaught IndexError at
newLines[0] (the filtered serialized-line list is empty), modelled as none,
so there is no decorated state to restore from at all. -/
theorem C7_blank_format_breaks_roundtrip :
    (clearBulletsAndTables (addBullets exFmtBase)).outputLines = [[]] ∧
    (clearBulletsAndTables (addBullets exFmtBase)).outputLines ≠
      exFmtBase.outputLines ∧
    addTables exFmtBase = none := by
  refine ⟨by decide, by decide, ?_⟩
  rfl

/-- C7 (amended): on an undecorated format whose stored output lines are
compiled lines (each the parse of its own serialization, as
updateLineParsing always leaves them) with at least one line,
clearBulletsAndTables after addBullets restores exactly the pre-decoration
output-line template list and clears the sibling prefix and suffix; and
whenever addTables completes without raising (returns some decorated
format), clearBulletsAndTables on that decorated format restores the same
way. -/
theorem C7_decoration_roundtrip_amended (fmt fmtT : NodeFormat)
    (hne : fmt.outputLines ≠ [])
    (hnorm : ∀ l ∈ fmt.outputLines, parseLine fmt.fieldDict (joinParts l) = l)
    (ht : addTables fmt = some fmtT) :
    ((clearBulletsAndTables (addBullets fmt)).outputLines = fmt.outputLines ∧
     (clearBulletsAndTables (addBullets fmt)).siblingPrefix = [] ∧
     (clearBulletsAndTables (addBullets fmt)).siblingSuffix = [] ∧
     (clearBulletsAndTables (addBullets fmt)).origOutputLines = []) ∧
    ((clearBulletsAndTables fmtT).outputLines = fmt.outputLines ∧
     (clearBulletsAndTables fmtT).siblingPrefix = [] ∧
     (clearBulletsAndTables fmtT).siblingSuffix = [] ∧
     (clearBulletsAndTables fmtT).origOutputLines = []) := by
  obtain ⟨hbfd, hborig⟩ := addBullets_fields fmt hne hnorm
  have hfields := addTablesBody_fields fmt
    ((getOutputLines fmt true).filter (fun l => l ≠ [])) hne hnorm
  rw [← addTables_eq_some fmt fmtT ht] at hfields
  obtain ⟨htfd, htorig⟩ := hfields
  exact ⟨clearBulletsAndTables_restores fmt (addBullets fmt) hbfd hborig hne hnorm,
         clearBulletsAndTables_restores fmt fmtT htfd htorig hne hnorm⟩

/-- C7 witness: the round trip at a concrete format with lines
"Name: \x7b*A*\x7d" and "\x7b*B*\x7d", where addTables succeeds and
produces exFmt7Dec. -/
theorem C7_decoration_roundtrip_witness :
    (clearBulletsAndTables (addBullets exFmt7T)).outputLines =
        exFmt7T.outputLines ∧
    (clearBulletsAndTables exFmt7Dec).outputLines = exFmt7T.outputLines :=
  ⟨(C7_decoration_roundtrip_amended exFmt7T exFmt7Dec
      (by decide) (by decide) rfl).1.1,
   (C7_decoration_roundtrip_amended exFmt7T exFmt7Dec
      (by decide) (by decide) rfl).2.1⟩

/-! ### C10: replaceDuplicateIds frame properties -/

theorem pyDictSet_append {α β : Type} [DecidableEq α] (d : List (α × β))
    (k : α) (v : β) (hk : ∀ kv ∈ d, kv.1 ≠ k) :
    pyDictSet d k v = d ++ [(k, v)] := by
  induction d with
  | nil => rfl
  | cons kv r ih =>
    rw [pyDictSet, if_neg (hk kv (List.mem_cons_self _ _)),
      ih (fun kv2 h2 => hk kv2 (List.mem_cons_of_mem _ h2))]
    simp

theorem nodup_keys_val_eq {α β : Type} [DecidableEq α] (d : List (α × β))
    (hnodup : (d.map Prod.fst).Nodup) (k : α) (v1 v2 : β)
    (h1 : (k, v1) ∈ d) (h2 : (k, v2) ∈ d) : v1 = v2 := by
  induction d with
  | nil => simp at h1
  | cons kv r ih =>
    rw [List.map_cons, List.nodup_cons] at hnodup
    rcases List.mem_cons.mp h1 with e1 | e1 <;> rcases List.mem_cons.mp h2 with e2 | e2
    · have he := e1.trans e2.symm
      exact ((Prod.mk.injEq _ _ _ _).mp he).2
    · have hk : kv.1 = k := by rw [← e1]
      exact absurd (by rw [hk]; exact List.mem_map.mpr ⟨(k, v2), e2, rfl⟩) hnodup.1
    · have hk : kv.1 = k := by rw [← e2]
      exact absurd (by rw [hk]; exact List.mem_map.mpr ⟨(k, v1), e1, rfl⟩) hnodup.1
    · exact ih hnodup.2 e1 e2

theorem key_not_mem_eraseP {β : Type} (d : List (Nat × β)) (k0 : Nat)
    (hnodup : (d.map Prod.fst).Nodup) :
    k0 ∉ (d.eraseP (fun kv => kv.1 = k0)).map Prod.fst := by
  induction d with
  | nil => simp
  | cons kv r ih =>
    rw [List.map_cons, List.nodup_cons] at hnodup
    by_cases hk : kv.1 = k0
    · rw [List.eraseP_cons_of_pos (by simp [hk])]
      rw [← hk]
      exact hnodup.1
    · rw [List.eraseP_cons_of_neg (by simp [hk])]
      rw [List.map_cons]
      intro hmem
      rcases List.mem_cons.mp hmem with he | he
      · exact hk he.symm
      · exact ih hnodup.2 he

theorem replaceDup_fold (h : Heap) (dup : List Nat) (fresh : Nat → Nat)
    (origKeys : List Nat)
    (hfdup : ∀ i, fresh i ∉ dup)
    (hforig : ∀ i, fresh i ∉ origKeys)
    (hfinj : ∀ i j, fresh i = fresh j → i = j) :
    ∀ (vs : List Nat) (hh : Heap) (d : List (Nat × Nat)) (k : Nat),
      vs.Nodup →
      (∀ oi ∈ vs, hh oi = h oi) →
      (∀ oi ∈ vs, ∃ key, (key, oi) ∈ d) →
      (∀ key ∈ d.map Prod.fst, key ∈ origKeys ∨ ∃ j, j < k ∧ key = fresh j) →
      (d.map Prod.fst).Nodup →
      (∀ kv ∈ d, (hh kv.2).uId = kv.1) →
      (∀ oi, (hh oi).data = (h oi).data ∧ (hh oi).childList = (h oi).childList ∧
        ((h oi).uId ∉ dup → hh oi = h oi)) →
      (∀ kv ∈ d, kv.1 ∉ dup ∨ kv.2 ∈ vs) →
      (vs.foldl (replaceDupStep dup fresh) (hh, d, k)).2.1.length = d.length ∧
      (∀ oi,
        ((vs.foldl (replaceDupStep dup fresh) (hh, d, k)).1 oi).data = (h oi).data ∧
        ((vs.foldl (replaceDupStep dup fresh) (hh, d, k)).1 oi).childList =
          (h oi).childList ∧
        ((h oi).uId ∉ dup →
          (vs.foldl (replaceDupStep dup fresh) (hh, d, k)).1 oi = h oi)) ∧
      (∀ key ∈ (vs.foldl (replaceDupStep dup fresh) (hh, d, k)).2.1.map Prod.fst,
        key ∉ dup) := by
  intro vs
  induction vs with
  | nil =>
    intro hh d k _ _ _ _ _ _ hdata hdone
    refine ⟨rfl, hdata, ?_⟩
    intro key hkey
    obtain ⟨kv, hkv, hfst⟩ := List.mem_map.mp hkey
    rcases hdone kv hkv with hnd | hmem
    · rw [← hfst]
      exact hnd
    · simp at hmem
  | cons oi rest ih =>
    intro hh d k hnodupvs hvs hentry hkeys hnodup hcons hdata hdone
    obtain ⟨hoirest, hnodupr⟩ := List.nodup_cons.mp hnodupvs
    have hho : hh oi = h oi := hvs oi (List.mem_cons_self _ _)
    rw [List.foldl_cons]
    by_cases hdup : (hh oi).uId ∈ dup
    · -- the node is re-keyed
      have hstep : replaceDupStep dup fresh (hh, d, k) oi =
          (heapSet hh oi { hh oi with uId := fresh k },
           pyDictSet (d.eraseP (fun kv => kv.1 = (hh oi).uId)) (fresh k) oi,
           k + 1) := by
        unfold replaceDupStep
        simp only []
        rw [if_pos hdup]
      rw [hstep]
      obtain ⟨key0, hkey0⟩ := hentry oi (List.mem_cons_self _ _)
      have hkey0id : key0 = (hh oi).uId := (hcons (key0, oi) hkey0).symm
      have hF1 : ((hh oi).uId, oi) ∈ d := by
        rw [← hkey0id]
        exact hkey0
      have hdlen : (d.eraseP (fun kv => kv.1 = (hh oi).uId)).length =
          d.length - 1 :=
        List.length_eraseP_of_mem hF1 (by simp)
      have hF3 : ∀ kv ∈ d.eraseP (fun kv => kv.1 = (hh oi).uId), kv ∈ d :=
        fun kv hkv => List.mem_of_mem_eraseP hkv
      have hF5 : ((d.eraseP (fun kv => kv.1 = (hh oi).uId)).map Prod.fst).Nodup :=
        hnodup.sublist ((List.eraseP_sublist _).map Prod.fst)
      have hF6 : ∀ kv ∈ d.eraseP (fun kv => kv.1 = (hh oi).uId), kv.2 ≠ oi := by
        intro kv hkv he
        have hkv2 : kv ∈ d := hF3 kv hkv
        have : kv.1 = (hh oi).uId := by
          rw [← hcons kv hkv2, he]
        exact key_not_mem_eraseP d (hh oi).uId hnodup
          (List.mem_map.mpr ⟨kv, hkv, this⟩)
      have hF7 : ∀ kv ∈ d.eraseP (fun kv => kv.1 = (hh oi).uId),
          kv.1 ≠ fresh k := by
        intro kv hkv he
        have hkd : kv.1 ∈ d.map Prod.fst :=
          List.mem_map.mpr ⟨kv, hF3 kv hkv, rfl⟩
        rcases hkeys kv.1 hkd with horg | ⟨j, hj, hje⟩
        · rw [he] at horg
          exact hforig k horg
        · rw [he] at hje
          have := hfinj j k hje.symm
          omega
      have hset : pyDictSet (d.eraseP (fun kv => kv.1 = (hh oi).uId))
          (fresh k) oi =
          d.eraseP (fun kv => kv.1 = (hh oi).uId) ++ [(fresh k, oi)] :=
        pyDictSet_append _ _ _ hF7
      have happ := ih (heapSet hh oi { hh oi with uId := fresh k })
        (pyDictSet (d.eraseP (fun kv => kv.1 = (hh oi).uId)) (fresh k) oi)
        (k + 1) hnodupr ?_ ?_ ?_ ?_ ?_ ?_ ?_
      · refine ⟨?_, happ.2.1, happ.2.2⟩
        rw [happ.1, hset, List.length_append, hdlen, List.length_singleton]
        have : d.length ≠ 0 := by
          intro h0
          rw [List.length_eq_zero] at h0
          rw [h0] at hF1
          simp at hF1
        omega
      · -- remaining objects untouched
        intro oj hj
        have hne2 : oj ≠ oi := fun he => hoirest (he ▸ hj)
        rw [heapSet, if_neg hne2]
        exact hvs oj (List.mem_cons_of_mem _ hj)
      · -- remaining objects keep an entry
        intro oj hj
        obtain ⟨key, hkey⟩ := hentry oj (List.mem_cons_of_mem _ hj)
        have hne2 : oj ≠ oi := fun he => hoirest (he ▸ hj)
        have hkne : key ≠ (hh oi).uId := by
          intro he
          have := nodup_keys_val_eq d hnodup (hh oi).uId oj oi
            (he ▸ hkey) hF1
          exact hne2 this
        refine ⟨key, ?_⟩
        rw [hset]
        exact List.mem_append_left _
          ((List.mem_eraseP_of_neg (by simp [hkne])).mpr hkey)
      · -- key provenance
        intro key hkey
        rw [hset, List.map_append] at hkey
        rcases List.mem_append.mp hkey with hk1 | hk1
        · obtain ⟨kv, hkv, hfst⟩ := List.mem_map.mp hk1
          have : key ∈ d.map Prod.fst :=
            List.mem_map.mpr ⟨kv, hF3 kv hkv, hfst⟩
          rcases hkeys key this with horg | ⟨j, hj, hje⟩
          · exact Or.inl horg
          · exact Or.inr ⟨j, by omega, hje⟩
        · simp only [List.map_cons, List.map_nil, List.mem_singleton] at hk1
          exact Or.inr ⟨k, by omega, hk1⟩
      · -- keys stay nodup
        rw [hset, List.map_append]
        rw [List.nodup_append]
        refine ⟨hF5, by simp, ?_⟩
        intro a ha hb
        simp only [List.map_cons, List.map_nil, List.mem_singleton] at hb
        obtain ⟨kv, hkv, hfst⟩ := List.mem_map.mp ha
        exact hF7 kv hkv (hfst.trans hb)
      · -- table-to-heap consistency
        intro kv hkv
        rw [hset] at hkv
        rcases List.mem_append.mp hkv with hk1 | hk1
        · have hne2 := hF6 kv hk1
          rw [heapSet, if_neg hne2]
          exact hcons kv (hF3 kv hk1)
        · simp only [List.mem_singleton] at hk1
          rw [hk1]
          rw [heapSet, if_pos rfl]
      · -- heap frame
        intro oj
        by_cases hoj : oj = oi
        · subst hoj
          rw [heapSet, if_pos rfl]
          refine ⟨(hdata oj).1, (hdata oj).2.1, ?_⟩
          intro hnd
          rw [hho] at hdup
          exact absurd hdup hnd
        · rw [heapSet, if_neg hoj]
          exact hdata oj
      · -- every duplicate entry is still pending or now fresh
        intro kv hkv
        rw [hset] at hkv
        rcases List.mem_append.mp hkv with hk1 | hk1
        · rcases hdone kv (hF3 kv hk1) with hnd | hmem
          · exact Or.inl hnd
          · rcases List.mem_cons.mp hmem with he | he
            · exact absurd he (hF6 kv hk1)
            · exact Or.inr he
        · simp only [List.mem_singleton] at hk1
          rw [hk1]
          exact Or.inl (hfdup k)
    · -- the node keeps its id; nothing changes
      have hstep : replaceDupStep dup fresh (hh, d, k) oi = (hh, d, k) := by
        unfold replaceDupStep
        simp only []
        rw [if_neg hdup]
      rw [hstep]
      apply ih hh d k hnodupr
        (fun oj hj => hvs oj (List.mem_cons_of_mem _ hj))
        (fun oj hj => hentry oj (List.mem_cons_of_mem _ hj))
        hkeys hnodup hcons hdata
      intro kv hkv
      rcases hdone kv hkv with hnd | hmem
      · exact Or.inl hnd
      · rcases List.mem_cons.mp hmem with he | he
        · left
          rw [← hcons kv hkv, he]
          exact hdup
        · exact Or.inr he

/-- C10: replaceDuplicateIds changes only identity-table keys.  With a
consistent table (each entry's key is its object's uid, keys unique) and
fresh ids that are new (outside the duplicate dictionary and the original
key set) and pairwise distinct: the node count is unchanged, every object
keeps its data and child list, every object whose uid was not a duplicate
is untouched entirely, and no key of the resulting table is in the
duplicate dictionary. -/
theorem C10_replaceDuplicateIds_frame (h : Heap) (s : TreeStruct)
    (dup : List Nat) (fresh : Nat → Nat)
    (hcons : ∀ kv ∈ s.nodeDict, (h kv.2).uId = kv.1)
    (hnodup : (s.nodeDict.map Prod.fst).Nodup)
    (hfdup : ∀ i, fresh i ∉ dup)
    (hforig : ∀ i, fresh i ∉ s.nodeDict.map Prod.fst)
    (hfinj : ∀ i j, fresh i = fresh j → i = j) :
    (replaceDuplicateIds h s dup fresh).2.nodeDict.length = s.nodeDict.length ∧
    (∀ oi, ((replaceDuplicateIds h s dup fresh).1 oi).data = (h oi).data ∧
           ((replaceDuplicateIds h s dup fresh).1 oi).childList = (h oi).childList) ∧
    (∀ oi, (h oi).uId ∉ dup → (replaceDuplicateIds h s dup fresh).1 oi = h oi) ∧
    (∀ key ∈ (replaceDuplicateIds h s dup fresh).2.nodeDict.map Prod.fst,
      key ∉ dup) := by
  have hdnodup : s.nodeDict.Nodup := List.Nodup.of_map Prod.fst hnodup
  have hvalsnodup : (s.nodeDict.map (fun kv => kv.2)).Nodup := by
    refine List.Nodup.map_on ?_ hdnodup
    intro kv1 h1 kv2 h2 he
    have e1 := hcons kv1 h1
    have e2 := hcons kv2 h2
    have : kv1.1 = kv2.1 := by rw [← e1, ← e2, he]
    exact Prod.ext this he
  have happ := replaceDup_fold h dup fresh (s.nodeDict.map Prod.fst)
    hfdup hforig hfinj (s.nodeDict.map (fun kv => kv.2)) h s.nodeDict 0
    hvalsnodup
    (fun _ _ => rfl)
    (fun oi hoi => by
      obtain ⟨kv, hkv, he⟩ := List.mem_map.mp hoi
      exact ⟨kv.1, by rw [← he]; exact hkv⟩)
    (fun key hk => Or.inl hk)
    hnodup
    hcons
    (fun oi => ⟨rfl, rfl, fun _ => rfl⟩)
    (fun kv hkv => Or.inr (List.mem_map_of_mem _ hkv))
  unfold replaceDuplicateIds
  simp only []
  exact ⟨happ.1, fun oi => ⟨(happ.2.1 oi).1, (happ.2.1 oi).2.1⟩,
    fun oi hd => (happ.2.1 oi).2.2 hd, happ.2.2⟩

/-- C10 witness: re-keying uid 11 in the deletion example structure keeps
the node count at four. -/
theorem C10_replaceDuplicateIds_witness :
    (replaceDuplicateIds orphanHeap orphanStruct [11]
        (fun k => 100 + k)).2.nodeDict.length =
      orphanStruct.nodeDict.length :=
  (C10_replaceDuplicateIds_frame orphanHeap orphanStruct [11] (fun k => 100 + k)
    (by decide) (by decide)
    (fun i => by simp; omega)
    (fun i => by simp [orphanStruct]; omega)
    (fun i j hij => by simp only [] at hij; omega)).1

/-! ### C9: merge semantics -/

theorem dictGet_pyDictSet_self {α β : Type} [DecidableEq α]
    (d : List (α × β)) (k : α) (v : β) :
    dictGet (pyDictSet d k v) k = some v := by
  induction d with
  | nil => simp [pyDictSet, dictGet]
  | cons kv r ih =>
    obtain ⟨a, b⟩ := kv
    rw [pyDictSet]
    by_cases hk : a = k
    · simp only at hk
      rw [if_pos hk, dictGet, if_pos rfl]
    · simp only at hk
      rw [if_neg hk, dictGet, if_neg hk]
      exact ih

theorem dictGet_pyDictSet_ne {α β : Type} [DecidableEq α]
    (d : List (α × β)) (k k' : α) (v : β) (hk : k' ≠ k) :
    dictGet (pyDictSet d k v) k' = dictGet d k' := by
  induction d with
  | nil =>
    show dictGet [(k, v)] k' = none
    rw [dictGet, if_neg (fun he => hk he.symm)]
    rfl
  | cons kv r ih =>
    obtain ⟨a, b⟩ := kv
    rw [pyDictSet]
    by_cases hkk : a = k
    · simp only at hkk
      rw [if_pos hkk, dictGet, if_neg (fun he => hk he.symm), dictGet,
        if_neg (fun he => hk (he.symm.trans hkk))]
    · simp only at hkk
      rw [if_neg hkk, dictGet, dictGet]
      by_cases hk2 : a = k'
      · rw [if_pos hk2, if_pos hk2]
      · rw [if_neg hk2, if_neg hk2]
        exact ih

theorem mergeDict_fold (h : Heap) (entries : List (Nat × Nat)) :
    ∀ d0, (∀ kv ∈ entries, (h kv.2).uId = kv.1) →
      (entries.map Prod.fst).Nodup →
      (∀ kv ∈ entries,
        dictGet (entries.foldl (fun d kv => pyDictSet d (h kv.2).uId kv.2) d0)
          kv.1 = some kv.2) ∧
      (∀ k, k ∉ entries.map Prod.fst →
        dictGet (entries.foldl (fun d kv => pyDictSet d (h kv.2).uId kv.2) d0) k =
          dictGet d0 k) := by
  induction entries with
  | nil => intro d0 _ _; exact ⟨by simp, fun k _ => rfl⟩
  | cons kv rest ih =>
    intro d0 hcons hnodup
    rw [List.map_cons, List.nodup_cons] at hnodup
    rw [List.foldl_cons]
    have hid : (h kv.2).uId = kv.1 := hcons kv (List.mem_cons_self _ _)
    have ihr := ih (pyDictSet d0 (h kv.2).uId kv.2)
      (fun kv2 h2 => hcons kv2 (List.mem_cons_of_mem _ h2)) hnodup.2
    constructor
    · intro kv2 h2
      rcases List.mem_cons.mp h2 with he | he
      · subst he
        rw [ihr.2 kv2.1 hnodup.1, hid, dictGet_pyDictSet_self]
      · exact ihr.1 kv2 he
    · intro k hk
      rw [List.map_cons, List.mem_cons] at hk
      push_neg at hk
      rw [ihr.2 k hk.2, hid, dictGet_pyDictSet_ne d0 kv.1 k kv.2 hk.1]

theorem spliceStep_nodeDict (parent : Option Nat) (fuel : Nat)
    (st : Heap × TreeStruct × Int) (oi : Nat) :
    (addNodesSpliceStep parent fuel st oi).2.1.nodeDict = st.2.1.nodeDict := by
  unfold addNodesSpliceStep
  simp only []
  by_cases hp : st.2.2 ≥ 0
  · rw [if_pos hp]
    cases parent <;> rfl
  · rw [if_neg hp]
    cases parent <;> rfl

theorem spliceFold_nodeDict (parent : Option Nat) (fuel : Nat)
    (l : List Nat) :
    ∀ st : Heap × TreeStruct × Int,
      (l.foldl (addNodesSpliceStep parent fuel) st).2.1.nodeDict =
        st.2.1.nodeDict := by
  induction l with
  | nil => intro st; rfl
  | cons oi rest ih =>
    intro st
    rw [List.foldl_cons, ih, spliceStep_nodeDict]

/-- C9 amended: addNodesFromStruct detects nothing: with a consistent
source table (each entry's key is its object's uid, keys unique), after the
merge the target's identity table maps every source uid to the source's
object, silently replacing an existing entry under the same uid, while
every uid not in the source keeps its target entry; the merge always
proceeds. -/
theorem C9_merge_overwrite_semantics (h : Heap) (tgt src : TreeStruct)
    (parent : Option Nat) (position : Int) (fuel : Nat)
    (hcons : ∀ kv ∈ src.nodeDict, (h kv.2).uId = kv.1)
    (hnodup : (src.nodeDict.map Prod.fst).Nodup) :
    (∀ kv ∈ src.nodeDict,
      dictGet (addNodesFromStruct h tgt src parent position fuel).2.nodeDict
        kv.1 = some kv.2) ∧
    (∀ k, k ∉ src.nodeDict.map Prod.fst →
      dictGet (addNodesFromStruct h tgt src parent position fuel).2.nodeDict k =
        dictGet tgt.nodeDict k) := by
  have hfold := mergeDict_fold h src.nodeDict tgt.nodeDict hcons hnodup
  have hdict : (addNodesFromStruct h tgt src parent position fuel).2.nodeDict =
      src.nodeDict.foldl (fun d kv => pyDictSet d (h kv.2).uId kv.2)
        tgt.nodeDict := by
    unfold addNodesFromStruct
    simp only []
    rw [spliceFold_nodeDict]
  rw [hdict]
  exact hfold

/-- C9 amended witness: after merging the colliding source, uid 5 resolves
to the source's object 1, not the target's object 0. -/
theorem C9_merge_witness :
    dictGet (addNodesFromStruct mergeHeap mergeTgt mergeSrc none (-1) 5).2.nodeDict
      5 = some 1 :=
  (C9_merge_overwrite_semantics mergeHeap mergeTgt mergeSrc none (-1) 5
    (by decide) (by decide)).1 (5, 1) (by decide)

end TreeLine
